import Mathlib

set_option autoImplicit false

namespace Lvlgen

/-- Modelled from the spec: the `Cell` enum lives in `cell.rs`, which is not under
`src/`. Per the spec's data model it is a tag over the closed set
Unreachable (empty), Reachable (transient flood-fill marker), Hole, Boulder,
BoulderInHole. -/
inductive Cell where
  | Unreachable
  | Reachable
  | Hole
  | Boulder
  | BoulderInHole
deriving DecidableEq, Repr

/-- Modelled from the spec: `to_index` lives in `grid.rs`, which is not under
`src/`. Per the spec, a cell index is derived from row and column as
index = row * size + col. -/
def to_index (row col size : Nat) : Nat := row * size + col

inductive Direction where
  | Up
  | Down
  | Left
  | Right
deriving DecidableEq, Repr

def DIRECTIONS : List Direction := [Direction.Up, Direction.Down, Direction.Left, Direction.Right]

/-- Translation of `move_one` from `state_graph.rs`: boundary-aware single-step
move of an index on a `board_size` by `board_size` grid. -/
def move_one (idx : Nat) (dir : Direction) (board_size : Nat) : Option Nat :=
  let row := idx / board_size
  let col := idx % board_size
  match dir with
  | Direction.Up =>
    if row = 0 then none
    else some (to_index (row - 1) col board_size)
  | Direction.Down =>
    if row ≥ board_size - 1 then none
    else some (to_index (row + 1) col board_size)
  | Direction.Left =>
    if col = 0 then none
    else some (to_index row (col - 1) board_size)
  | Direction.Right =>
    if col ≥ board_size - 1 then none
    else some (to_index row (col + 1) board_size)

/-- One cell read with the out-of-range default Unreachable; in-range reads
agree with the Rust indexing, which is the regime all theorems assume. -/
def cellAt (g : List Cell) (i : Nat) : Cell := g.getD i Cell.Unreachable

/-- Does any orthogonal neighbor of `i` currently hold the Reachable marker? -/
def hasReachableNeighbor (g : List Cell) (size i : Nat) : Bool :=
  DIRECTIONS.any fun d =>
    match move_one i d size with
    | some j => cellAt g j = Cell.Reachable
    | none => false

/-- One saturation pass of the flood fill: every Unreachable cell orthogonally
adjacent to a Reachable cell becomes Reachable. -/
def fillPass (size : Nat) (g : List Cell) : List Cell :=
  (List.range g.length).foldl
    (fun acc i =>
      if cellAt acc i = Cell.Unreachable ∧ hasReachableNeighbor acc size i then
        acc.set i Cell.Reachable
      else acc)
    g

/-- Modelled from the spec: `fill_reachable_cells` lives in `grid.rs`, which is
not under `src/`. Per the spec it marks, in place, every cell reachable from
`start` by ordinary tractor movement (through empty/Unreachable cells, not
pushes) as Reachable. Modelled as marking the start cell and then saturating
with one pass per grid cell. -/
def fill_reachable_cells (start : Nat) (grid : List Cell) (size : Nat) : List Cell :=
  let g0 := if cellAt grid start = Cell.Unreachable then grid.set start Cell.Reachable else grid
  (fillPass size)^[grid.length] g0

/-- Abnormal outcomes of running the translated code: `assertFail` models a Rust
assertion failure or `unwrap` panic, `fuelOut` marks recursion-fuel exhaustion
(used to give the recursive explorer a total Lean definition). -/
inductive RunErr where
  | assertFail
  | fuelOut
deriving DecidableEq, Repr

instance exceptDecEq {ε α : Type} [DecidableEq ε] [DecidableEq α] :
    DecidableEq (Except ε α) := fun x y =>
  match x, y with
  | Except.ok a, Except.ok b =>
    if h : a = b then isTrue (by rw [h]) else isFalse (fun hh => h (Except.ok.inj hh))
  | Except.ok _, Except.error _ => isFalse (fun hh => Except.noConfusion hh)
  | Except.error _, Except.ok _ => isFalse (fun hh => Except.noConfusion hh)
  | Except.error e, Except.error f =>
    if h : e = f then isTrue (by rw [h]) else isFalse (fun hh => h (Except.error.inj hh))

/-- Translation of `extend_state` from `state_graph.rs`: attempt to push the
boulder at `boulder` one step in `dir`. The leading Rust `assert!` that the
cell holds Boulder or BoulderInHole is modelled as the `assertFail` error. -/
def extend_state (boulder : Nat) (dir : Direction) (grid : List Cell) (size : Nat) :
    Except RunErr (Option (List Cell)) :=
  if cellAt grid boulder = Cell.Boulder ∨ cellAt grid boulder = Cell.BoulderInHole then
    Except.ok (
      match move_one boulder dir size with
      | none => none
      | some new_boulder =>
        if cellAt grid new_boulder ≠ Cell.Reachable then none
        else
          match move_one new_boulder dir size with
          | none => none
          | some new_tractor =>
            if cellAt grid new_tractor ≠ Cell.Reachable then none
            else
              let g1 :=
                if cellAt grid boulder = Cell.Boulder then grid.set boulder Cell.Unreachable
                else if cellAt grid boulder = Cell.BoulderInHole then grid.set boulder Cell.Hole
                else grid
              let g2 := g1.set new_boulder Cell.Boulder
              let g3 := g2.map fun c => if c = Cell.Reachable then Cell.Unreachable else c
              some (fill_reachable_cells new_tractor g3 size))
  else Except.error RunErr.assertFail

/-- Lookup in an association list, first match wins (HashMap lookup under the
no-duplicate-keys discipline the code maintains). -/
def alistLookup {α β : Type} [DecidableEq α] (k : α) : List (α × β) → Option β
  | [] => none
  | (a, b) :: rest => if a = k then some b else alistLookup k rest

/-- Update the value at key `k` (first occurrence) by `f`; identity when the key
is absent (models `HashMap::get_mut` followed by a mutation, guarded by
`if let Some`). -/
def alistUpdate {α β : Type} [DecidableEq α] (k : α) (f : β → β) : List (α × β) → List (α × β)
  | [] => []
  | (a, b) :: rest => if a = k then (a, f b) :: rest else (a, b) :: alistUpdate k f rest

/-- Translation of `StateGraph` from `state_graph.rs`: the three HashMaps are
modelled as association lists. -/
structure StateGraph where
  state_to_id : List (List Cell × Nat)
  id_to_state : List (Nat × List Cell)
  neighbors : List (Nat × List Nat)
deriving DecidableEq, Repr

def StateGraph.get_neighbors (g : StateGraph) (id : Nat) : Option (List Nat) :=
  alistLookup id g.neighbors

def StateGraph.get_state (g : StateGraph) (id : Nat) : Option (List Cell) :=
  alistLookup id g.id_to_state

def StateGraph.contains_id (g : StateGraph) (id : Nat) : Bool :=
  (alistLookup id g.id_to_state).isSome

def StateGraph.contains_state (g : StateGraph) (state : List Cell) : Bool :=
  (alistLookup state g.state_to_id).isSome

def StateGraph.len (g : StateGraph) : Nat := g.state_to_id.length

/-- Translation of `StateGraph::insert_state`; the Rust `assert!` that the state
is not yet present is modelled by returning `none` (a panic). -/
def StateGraph.insert_state (g : StateGraph) (state : List Cell) : Option (StateGraph × Nat) :=
  if g.contains_state state then none
  else
    let id := g.state_to_id.length
    some (⟨(state, id) :: g.state_to_id, (id, state) :: g.id_to_state, (id, []) :: g.neighbors⟩, id)

/-- Translation of `StateGraph::connect_states`; the two `unwrap`s on the id
lookups are modelled by the `Option` binds, and the `if let Some` around the
neighbor-list mutation by `alistUpdate`'s identity-on-missing-key behaviour. -/
def StateGraph.connect_states (g : StateGraph) (src : List Cell) (dst : List Cell) :
    Option StateGraph :=
  match alistLookup src g.state_to_id with
  | none => none
  | some from_id =>
    match alistLookup dst g.state_to_id with
    | none => none
    | some to_id =>
      some { g with neighbors := alistUpdate from_id (fun l => l ++ [to_id]) g.neighbors }

/-- Translation of `StateGraph::new` / `set_root`: a fresh graph holding only the
root. The `set_root` assertion trivially holds on the empty graph, so the
insert cannot fail; the fallback branch is unreachable. -/
def StateGraph.new (root : List Cell) : StateGraph :=
  match StateGraph.insert_state ⟨[], [], []⟩ root with
  | some (g, _) => g
  | none => ⟨[], [], []⟩

mutual

/-- Translation of `handle_next_state` from `state_graph.rs`. The Rust recursion
is given fuel to make it a total Lean function; `fuelOut` marks exhaustion and
`assertFail` any assertion/unwrap panic reached. -/
def handle_next_state (fuel : Nat) (state : List Cell) (size : Nat) (found : StateGraph) :
    Except RunErr StateGraph :=
  match fuel with
  | 0 => Except.error RunErr.fuelOut
  | Nat.succ f => handleCells f state size state.enum found
termination_by (fuel, 0, 0)

/-- The outer loop of `handle_next_state`: iterate over the enumerated cells of
`state`, skipping cells that are not Boulder or BoulderInHole. -/
def handleCells (fuel : Nat) (state : List Cell) (size : Nat) (cells : List (Nat × Cell))
    (found : StateGraph) : Except RunErr StateGraph :=
  match cells with
  | [] => Except.ok found
  | (idx, cell) :: rest =>
    if cell = Cell.Boulder ∨ cell = Cell.BoulderInHole then
      match handleDirs fuel state size idx DIRECTIONS found with
      | Except.error e => Except.error e
      | Except.ok found1 => handleCells fuel state size rest found1
    else handleCells fuel state size rest found
termination_by (fuel, 2, cells.length)

/-- The inner loop of `handle_next_state`: try each push direction for the
boulder at `idx`, connecting to known states and recursing into new ones. -/
def handleDirs (fuel : Nat) (state : List Cell) (size : Nat) (idx : Nat)
    (dirs : List Direction) (found : StateGraph) : Except RunErr StateGraph :=
  match dirs with
  | [] => Except.ok found
  | dir :: rest =>
    match extend_state idx dir state size with
    | Except.error e => Except.error e
    | Except.ok none => handleDirs fuel state size idx rest found
    | Except.ok (some new_state) =>
      if found.contains_state new_state then
        match found.connect_states state new_state with
        | none => Except.error RunErr.assertFail
        | some found1 => handleDirs fuel state size idx rest found1
      else
        match found.insert_state new_state with
        | none => Except.error RunErr.assertFail
        | some (found1, _) =>
          match found1.connect_states state new_state with
          | none => Except.error RunErr.assertFail
          | some found2 =>
            match handle_next_state fuel new_state size found2 with
            | Except.error e => Except.error e
            | Except.ok found3 => handleDirs fuel state size idx rest found3
termination_by (fuel, 1, dirs.length)

end

/-- Translation of `walk_states_graph_from`. -/
def walk_states_graph_from (fuel : Nat) (initial_state : List Cell) (size : Nat) :
    Except RunErr StateGraph :=
  let found := StateGraph.new initial_state
  handle_next_state fuel initial_state size found

/-- Translation of `find_solvable_states`: mark the tractor cell Unreachable,
flood-fill reachability from it, then explore. -/
def find_solvable_states (fuel : Nat) (tractor : Nat) (grid : List Cell) (size : Nat) :
    Except RunErr StateGraph :=
  let grid1 := grid.set tractor Cell.Unreachable
  let grid2 := fill_reachable_cells tractor grid1 size
  walk_states_graph_from fuel grid2 size

/-- Modelled from the spec: `ShortestGraph` lives in `shortest_path.rs`, which is
not under `src/`. Per the spec, the shortest-path tree is rooted at a source id
and records, for every discovered id, the parent id via which it was first
reached. -/
structure ShortestGraph where
  source : Nat
  parent : List (Nat × Nat)
deriving DecidableEq, Repr

/-- Modelled from the spec: a fresh shortest-path tree rooted at `src`. -/
def ShortestGraph.new (src : Nat) : ShortestGraph := ⟨src, []⟩

/-- Modelled from the spec: record that `child` was reached via `par`. Per the
spec the tree keeps the parent via which a node was *first* reached, so a
second insert for the same child is a no-op. -/
def ShortestGraph.insert (sg : ShortestGraph) (par child : Nat) : ShortestGraph :=
  if (alistLookup child sg.parent).isSome then sg
  else ⟨sg.source, (child, par) :: sg.parent⟩

/-- Trace events of the breadth-first traversal: a queue push or a queue pop of
a node id. -/
inductive BfsEvent where
  | pushE (id : Nat)
  | popE (id : Nat)
deriving DecidableEq, Repr

/-- HashSet-style insert into the visited set. -/
def insertVisited (x : Nat) (v : List Nat) : List Nat := if x ∈ v then v else x :: v

/-- The inner neighbor loop of `build_shortest_path_from`: for each neighbor not
in `visited`, record its edge and push it, emitting a push event. Returns the
extended queue, the extended tree and the push events in order. -/
def processNeighbors (next : Nat) (ns : List Nat) (visited : List Nat) (queue : List Nat)
    (shortest : ShortestGraph) : List Nat × ShortestGraph × List BfsEvent :=
  match ns with
  | [] => (queue, shortest, [])
  | nb :: rest =>
    if nb ∈ visited then processNeighbors next rest visited queue shortest
    else
      let res := processNeighbors next rest visited (queue ++ [nb]) (shortest.insert next nb)
      (res.1, res.2.1, BfsEvent.pushE nb :: res.2.2)

/-- The while loop of `build_shortest_path_from`, with fuel bounding the number
of iterations; returns the finished tree and the event trace. -/
def bfs_loop (g : StateGraph) : Nat → List Nat → List Nat → ShortestGraph →
    Option (ShortestGraph × List BfsEvent)
  | 0, _, _, _ => none
  | _ + 1, [], _, shortest => some (shortest, [])
  | fuel + 1, next :: rest, visited, shortest =>
    let visited' := insertVisited next visited
    let pr :=
      match alistLookup next g.neighbors with
      | none => (rest, shortest, ([] : List BfsEvent))
      | some ns => processNeighbors next ns visited' rest shortest
    match bfs_loop g fuel pr.1 visited' pr.2.1 with
    | none => none
    | some (sgf, t) => some (sgf, BfsEvent.popE next :: (pr.2.2 ++ t))

/-- Translation of `build_shortest_path_from` from `state_graph.rs`, with the
event trace kept alongside the result: seed the queue and the visited set with
the source and run the loop. -/
def bfs_run (g : StateGraph) (src : Nat) (fuel : Nat) : Option (ShortestGraph × List BfsEvent) :=
  match bfs_loop g fuel [src] [src] (ShortestGraph.new src) with
  | none => none
  | some (sg, t) => some (sg, BfsEvent.pushE src :: t)

/-- Translation of `build_shortest_path_from`, result only. -/
def build_shortest_path_from (g : StateGraph) (src : Nat) (fuel : Nat) : Option ShortestGraph :=
  (bfs_run g src fuel).map Prod.fst

/-- The spec's description of the vacated boulder cell update: Boulder becomes
Unreachable, BoulderInHole becomes Hole. -/
def vacate_boulder_cell (grid : List Cell) (boulder : Nat) : List Cell :=
  if cellAt grid boulder = Cell.Boulder then grid.set boulder Cell.Unreachable
  else if cellAt grid boulder = Cell.BoulderInHole then grid.set boulder Cell.Hole
  else grid

/-- The spec's description of the stale-marker reset: every cell still marked
Reachable becomes Unreachable. -/
def clear_reachable_marks (g : List Cell) : List Cell :=
  g.map fun c => if c = Cell.Reachable then Cell.Unreachable else c

/-- Numeric code of a cell, used only for the finiteness bound on the
configuration space. -/
def cellCode : Cell → Nat
  | Cell.Unreachable => 0
  | Cell.Reachable => 1
  | Cell.Hole => 2
  | Cell.Boulder => 3
  | Cell.BoulderInHole => 4

/-- Base-5 code of a configuration; injective on configurations of a fixed
length and bounded by 5 ^ length. -/
def encodeCells : List Cell → Nat
  | [] => 0
  | c :: rest => cellCode c + 5 * encodeCells rest

/-- Well-formedness carried through the exploration: the registered
configurations are pairwise distinct and all have length `L`. -/
structure WFLen (L : Nat) (g : StateGraph) : Prop where
  keys_nodup : (g.state_to_id.map Prod.fst).Nodup
  keys_len : ∀ s ∈ g.state_to_id.map Prod.fst, s.length = L

/-- The state graphs reachable from the constructor by successful `insert_state`
and `connect_states` calls. -/
inductive Built (root : List Cell) : StateGraph → Prop where
  | base : Built root (StateGraph.new root)
  | ins {g : StateGraph} {s : List Cell} {g' : StateGraph} {id : Nat} :
      Built root g → g.insert_state s = some (g', id) → Built root g'
  | conn {g : StateGraph} {a b : List Cell} {g' : StateGraph} :
      Built root g → g.connect_states a b = some g' → Built root g'

/-- Internal invariant of every built state graph, from which the public
invariants of claim C4 follow. -/
structure GraphInv (root : List Cell) (g : StateGraph) : Prop where
  ids_eq : g.state_to_id.map Prod.snd = (List.range g.state_to_id.length).reverse
  keys_nodup : (g.state_to_id.map Prod.fst).Nodup
  inverse : g.id_to_state = g.state_to_id.map (fun p => (p.2, p.1))
  nb_keys : g.neighbors.map Prod.fst = (List.range g.state_to_id.length).reverse
  root_last : g.state_to_id.getLast? = some (root, 0)

/-- The neighbor list of a node id in a state graph, empty when absent. -/
def nbrs (g : StateGraph) (y : Nat) : List Nat := (alistLookup y g.neighbors).getD []

/-- Directed paths in the state graph: `PathTo g src x n` holds when there is a
walk of exactly `n` edges from `src` to `x`. -/
inductive PathTo (g : StateGraph) (src : Nat) : Nat → Nat → Prop where
  | refl : PathTo g src src 0
  | tail {y n x} : PathTo g src y n → x ∈ nbrs g y → PathTo g src x (n + 1)

/-- `x` is reachable from `src` by directed edges. -/
def ReachableFrom (g : StateGraph) (src x : Nat) : Prop := ∃ n, PathTo g src x n

/-- `d` is the true minimum edge-count distance from `src` to `x`. -/
def MinDistIs (g : StateGraph) (src x d : Nat) : Prop :=
  PathTo g src x d ∧ ∀ m, PathTo g src x m → d ≤ m

/-- Following recorded parent pointers back to the source: `Chain sg x n` holds
when `n` parent steps lead from `x` back to the tree's source. -/
inductive Chain (sg : ShortestGraph) : Nat → Nat → Prop where
  | refl : Chain sg sg.source 0
  | tail {p n x} : Chain sg p n → alistLookup x sg.parent = some p → Chain sg x (n + 1)

/-- A node is in the shortest-path tree: it is the source or has a recorded
parent. -/
def keyedOrSource (sg : ShortestGraph) (x : Nat) : Prop :=
  x = sg.source ∨ (alistLookup x sg.parent).isSome

/-- Keep the first occurrence of every element. -/
def dedupF : List Nat → List Nat
  | [] => []
  | x :: xs => x :: (dedupF xs).filter (fun y => ¬ y = x)

/-- The BFS frontier: the not-yet-visited nodes still awaiting their first pop,
in the order their first queue entries will surface. -/
def frontier (Q V : List Nat) : List Nat := (dedupF Q).filter (fun q => ¬ q ∈ V)

/-- The loop invariant of the breadth-first traversal. `D` assigns to every
tree node its distance from the source; the frontier decomposes into a layer at
`d0` followed by a layer at `d0 + 1`. -/
structure BfsInv (g : StateGraph) (src : Nat) (Q V : List Nat) (sg : ShortestGraph)
    (D : Nat → Nat) : Prop where
  src_eq : sg.source = src
  src_vis : src ∈ V
  src_pending : src ∈ Q → Q = [src]
  keys_nodup : (sg.parent.map Prod.fst).Nodup
  src_not_key : alistLookup src sg.parent = none
  vis_keyed : ∀ v ∈ V, keyedOrSource sg v
  vis_nbrs_keyed : ∀ v ∈ V, (v = src → ¬ src ∈ Q) → ∀ x ∈ nbrs g v, keyedOrSource sg x
  queue_keyed : ∀ q ∈ Q, keyedOrSource sg q
  keyed_vis_or_queue : ∀ x, keyedOrSource sg x → x ∈ V ∨ x ∈ Q
  parent_edge : ∀ x p, alistLookup x sg.parent = some p →
    x ∈ nbrs g p ∧ keyedOrSource sg p ∧ D x = D p + 1
  dmin : ∀ x, keyedOrSource sg x → MinDistIs g src x (D x)
  dsrc : D src = 0
  twoblock : ∃ d0 A B, frontier Q V = A ++ B ∧ (∀ a ∈ A, D a = d0) ∧
    (∀ b ∈ B, D b = d0 + 1)

/-- The invariant of the inner neighbor loop at the (first) pop of `next`:
like `BfsInv`, but the neighbors of `next` are only required to be in the tree
once processed, and the frontier layers sit at `D next` and `D next + 1`. -/
structure MidInv (g : StateGraph) (src next : Nat) (Q V : List Nat) (sg : ShortestGraph)
    (D : Nat → Nat) : Prop where
  src_eq : sg.source = src
  src_vis : src ∈ V
  src_absent : ¬ src ∈ Q
  keys_nodup : (sg.parent.map Prod.fst).Nodup
  src_not_key : alistLookup src sg.parent = none
  vis_keyed : ∀ v ∈ V, keyedOrSource sg v
  vis_nbrs_keyed : ∀ v ∈ V, ¬ v = next → ∀ x ∈ nbrs g v, keyedOrSource sg x
  queue_keyed : ∀ q ∈ Q, keyedOrSource sg q
  keyed_vis_or_queue : ∀ x, keyedOrSource sg x → x ∈ V ∨ x ∈ Q
  parent_edge : ∀ x p, alistLookup x sg.parent = some p →
    x ∈ nbrs g p ∧ keyedOrSource sg p ∧ D x = D p + 1
  dmin : ∀ x, keyedOrSource sg x → MinDistIs g src x (D x)
  dsrc : D src = 0
  next_vis : next ∈ V
  next_keyed : keyedOrSource sg next
  twoblock : ∃ A B, frontier Q V = A ++ B ∧ (∀ a ∈ A, D a = D next) ∧
    (∀ b ∈ B, D b = D next + 1)

/-- How many times node `x` is pushed onto the queue in an event trace. -/
def pushCount (t : List BfsEvent) (x : Nat) : Nat := t.count (BfsEvent.pushE x)

/-- Relation between a grid and a later snapshot touched only by flood-fill
marking: cells agree except that some Unreachable cells became Reachable. -/
def onlyUR (g g' : List Cell) : Prop :=
  g'.length = g.length ∧
    ∀ i, cellAt g' i = cellAt g i ∨ (cellAt g i = Cell.Unreachable ∧ cellAt g' i = Cell.Reachable)

section Lemmas

variable {α β : Type} [DecidableEq α]

theorem alistLookup_cons_ne {k a : α} {b : β} {l : List (α × β)} (h : ¬ a = k) :
    alistLookup k ((a, b) :: l) = alistLookup k l := by
  simp [alistLookup, h]

theorem alistLookup_cons_self {a : α} {b : β} {l : List (α × β)} :
    alistLookup a ((a, b) :: l) = some b := by
  simp [alistLookup]

theorem alistLookup_isSome_iff (k : α) (l : List (α × β)) :
    (alistLookup k l).isSome ↔ k ∈ l.map Prod.fst := by
  induction l with
  | nil => simp [alistLookup]
  | cons p rest ih =>
    obtain ⟨a, b⟩ := p
    by_cases h : a = k
    · subst h
      simp [alistLookup]
    · have hk : ¬ k = a := fun he => h he.symm
      simp [alistLookup, h, hk, ih]

theorem alistLookup_mem {k : α} {v : β} {l : List (α × β)} (h : alistLookup k l = some v) :
    (k, v) ∈ l := by
  induction l with
  | nil => simp [alistLookup] at h
  | cons p rest ih =>
    obtain ⟨a, b⟩ := p
    by_cases ha : a = k
    · subst ha
      rw [alistLookup_cons_self] at h
      cases h
      exact List.mem_cons_self _ _
    · rw [alistLookup_cons_ne ha] at h
      exact List.mem_cons_of_mem _ (ih h)

theorem alistLookup_of_mem_nodup {k : α} {v : β} {l : List (α × β)}
    (hnd : (l.map Prod.fst).Nodup) (hm : (k, v) ∈ l) : alistLookup k l = some v := by
  induction l with
  | nil => simp at hm
  | cons p rest ih =>
    obtain ⟨a, b⟩ := p
    rw [List.map_cons] at hnd
    have h1 := (List.nodup_cons.mp hnd).1
    have h2 := (List.nodup_cons.mp hnd).2
    rcases List.mem_cons.mp hm with h | h
    · injection h with hk hv
      subst hk
      subst hv
      exact alistLookup_cons_self
    · have hak : ¬ a = k := by
        intro he
        subst he
        exact h1 (by simpa using List.mem_map_of_mem Prod.fst h)
      rw [alistLookup_cons_ne hak]
      exact ih h2 h

theorem alistUpdate_map_fst (k : α) (f : β → β) (l : List (α × β)) :
    (alistUpdate k f l).map Prod.fst = l.map Prod.fst := by
  induction l with
  | nil => rfl
  | cons p rest ih =>
    obtain ⟨a, b⟩ := p
    by_cases h : a = k <;> simp [alistUpdate, h, ih]

theorem alistLookup_update_self (k : α) (f : β → β) (l : List (α × β)) :
    alistLookup k (alistUpdate k f l) = (alistLookup k l).map f := by
  induction l with
  | nil => rfl
  | cons p rest ih =>
    obtain ⟨a, b⟩ := p
    by_cases h : a = k <;> simp [alistUpdate, alistLookup, h, ih]

theorem alistLookup_update_ne {k' k : α} (h : ¬ k' = k) (f : β → β) (l : List (α × β)) :
    alistLookup k' (alistUpdate k f l) = alistLookup k' l := by
  induction l with
  | nil => rfl
  | cons p rest ih =>
    obtain ⟨a, b⟩ := p
    by_cases ha : a = k
    · subst ha
      have hk : ¬ a = k' := fun he => h (he.symm)
      simp [alistUpdate, alistLookup, hk]
    · by_cases hak : a = k'
      · subst hak
        simp [alistUpdate, alistLookup, ha]
      · simp [alistUpdate, alistLookup, ha, hak, ih]

theorem foldl_preserve {γ δ : Type} (P : γ → Prop) (f : γ → δ → γ)
    (h : ∀ a b, P a → P (f a b)) : ∀ (l : List δ) (a : γ), P a → P (l.foldl f a)
  | [], _, ha => ha
  | b :: l, a, ha => foldl_preserve P f h l (f a b) (h a b ha)

theorem cellAt_lt_of_ne_default {g : List Cell} {i : Nat} (h : ¬ cellAt g i = Cell.Unreachable) :
    i < g.length := by
  by_contra hge
  exact h (List.getD_eq_default _ _ (Nat.le_of_not_lt hge))

theorem cellAt_set_self {g : List Cell} {i : Nat} (h : i < g.length) (c : Cell) :
    cellAt (g.set i c) i = c := by
  simp [cellAt, List.getD, List.getElem?_set_self', h]

theorem cellAt_set_ne {i j : Nat} (h : ¬ i = j) (g : List Cell) (c : Cell) :
    cellAt (g.set i c) j = cellAt g j := by
  simp [cellAt, List.getD, List.getElem?_set_ne h]

theorem cellAt_map {g : List Cell} {i : Nat} (h : i < g.length) (f : Cell → Cell) :
    cellAt (g.map f) i = f (cellAt g i) := by
  simp [cellAt, List.getD, List.getElem?_map, List.getElem?_eq_getElem h]

theorem foldl_preserve_mem {γ δ : Type} (P : γ → Prop) (f : γ → δ → γ) :
    ∀ (l : List δ), (∀ a b, b ∈ l → P a → P (f a b)) → ∀ (a : γ), P a → P (l.foldl f a)
  | [], _, _, ha => ha
  | b :: l, h, a, ha =>
    foldl_preserve_mem P f l (fun a' b' hb' => h a' b' (List.mem_cons_of_mem _ hb'))
      (f a b) (h a b (List.mem_cons_self _ _) ha)

theorem onlyUR_refl (g : List Cell) : onlyUR g g := ⟨rfl, fun _ => Or.inl rfl⟩

theorem onlyUR_trans {g g' g'' : List Cell} (h1 : onlyUR g g') (h2 : onlyUR g' g'') :
    onlyUR g g'' := by
  refine ⟨h2.1.trans h1.1, fun i => ?_⟩
  rcases h2.2 i with h | h
  · rcases h1.2 i with h' | h'
    · exact Or.inl (h.trans h')
    · exact Or.inr ⟨h'.1, h.trans h'.2⟩
  · rcases h1.2 i with h' | h'
    · exact Or.inr ⟨h'.symm.trans h.1, h.2⟩
    · rw [h'.2] at h
      exact absurd h.1 (by decide)

theorem onlyUR_set_reachable {g a : List Cell} {i : Nat} (h : onlyUR g a)
    (hu : cellAt a i = Cell.Unreachable) : onlyUR g (a.set i Cell.Reachable) := by
  by_cases hlt : i < a.length
  · refine ⟨(List.length_set a i Cell.Reachable).trans h.1, fun j => ?_⟩
    by_cases hij : i = j
    · subst hij
      rcases h.2 i with h' | h'
      · exact Or.inr ⟨h'.symm.trans hu, cellAt_set_self hlt _⟩
      · rw [h'.2] at hu
        exact absurd hu (by decide)
    · rw [cellAt_set_ne hij]
      exact h.2 j
  · rw [List.set_eq_of_length_le (Nat.le_of_not_lt hlt)]
    exact h

theorem fillPass_onlyUR {g a : List Cell} (size : Nat) (h : onlyUR g a) :
    onlyUR g (fillPass size a) := by
  unfold fillPass
  refine foldl_preserve_mem (onlyUR g) _ (List.range a.length) (fun a' i hi ha' => ?_) a h
  split
  · next hcond => exact onlyUR_set_reachable ha' hcond.1
  · exact ha'

theorem iterate_fillPass_onlyUR {g a : List Cell} (size n : Nat) (h : onlyUR g a) :
    onlyUR g ((fillPass size)^[n] a) := by
  induction n with
  | zero => exact h
  | succ n ih =>
    rw [Function.iterate_succ_apply']
    exact fillPass_onlyUR size ih

theorem fill_reachable_cells_onlyUR (start : Nat) (g : List Cell) (size : Nat) :
    onlyUR g (fill_reachable_cells start g size) := by
  unfold fill_reachable_cells
  refine iterate_fillPass_onlyUR size g.length ?_
  split
  · next hu => exact onlyUR_set_reachable (onlyUR_refl g) hu
  · exact onlyUR_refl g

theorem extend_state_ok_some_iff {grid : List Cell} {size boulder : Nat} {dir : Direction}
    (hcell : cellAt grid boulder = Cell.Boulder ∨ cellAt grid boulder = Cell.BoulderInHole)
    (out : List Cell) :
    extend_state boulder dir grid size = Except.ok (some out) ↔
      ∃ nb nt, move_one boulder dir size = some nb ∧ cellAt grid nb = Cell.Reachable ∧
        move_one nb dir size = some nt ∧ cellAt grid nt = Cell.Reachable ∧
        out = fill_reachable_cells nt
          (clear_reachable_marks ((vacate_boulder_cell grid boulder).set nb Cell.Boulder))
          size := by
  rw [extend_state, if_pos hcell]
  rcases h1 : move_one boulder dir size with _ | nb
  · simp [h1]
  · by_cases h2 : cellAt grid nb = Cell.Reachable
    · rcases h3 : move_one nb dir size with _ | nt
      · simp [h1, h2, h3]
      · by_cases h4 : cellAt grid nt = Cell.Reachable
        · simp [h1, h2, h3, h4, vacate_boulder_cell, clear_reachable_marks, eq_comm]
        · simp [h1, h2, h3, h4]
    · simp [h1, h2]

theorem extend_state_ok_none_of {grid : List Cell} {size boulder : Nat} {dir : Direction}
    (hcell : cellAt grid boulder = Cell.Boulder ∨ cellAt grid boulder = Cell.BoulderInHole)
    (hno : ¬ ∃ nb, move_one boulder dir size = some nb ∧ cellAt grid nb = Cell.Reachable ∧
      ∃ nt, move_one nb dir size = some nt ∧ cellAt grid nt = Cell.Reachable) :
    extend_state boulder dir grid size = Except.ok none := by
  rw [extend_state, if_pos hcell]
  rcases h1 : move_one boulder dir size with _ | nb
  · simp [h1]
  · by_cases h2 : cellAt grid nb = Cell.Reachable
    · rcases h3 : move_one nb dir size with _ | nt
      · simp [h1, h2, h3]
      · by_cases h4 : cellAt grid nt = Cell.Reachable
        · exact absurd ⟨nb, h1, h2, nt, h3, h4⟩ hno
        · simp [h1, h2, h3, h4]
    · simp [h1, h2]

theorem vacate_boulder_cell_length (g : List Cell) (b : Nat) :
    (vacate_boulder_cell g b).length = g.length := by
  unfold vacate_boulder_cell
  split
  · exact List.length_set g b Cell.Unreachable
  · split
    · exact List.length_set g b Cell.Hole
    · rfl

theorem clear_reachable_marks_length (g : List Cell) :
    (clear_reachable_marks g).length = g.length := List.length_map g _

end Lemmas

section ClaimTheoremsExtend

/-- C2: for every grid whose cell at `boulder` is Boulder or BoulderInHole, and
every direction, `extend_state` returns some configuration iff the cell one
step away (`new_boulder`) exists in bounds and holds Reachable and the cell one
further step (`new_tractor`) exists in bounds and holds Reachable; in every
other case it returns none. -/
theorem extend_state_legality (size : Nat) (grid : List Cell) (boulder : Nat) (dir : Direction)
    (hsz : 0 < size) (hlen : grid.length = size * size)
    (hcell : cellAt grid boulder = Cell.Boulder ∨ cellAt grid boulder = Cell.BoulderInHole) :
    ((∃ c, extend_state boulder dir grid size = Except.ok (some c)) ↔
      (∃ nb, move_one boulder dir size = some nb ∧ cellAt grid nb = Cell.Reachable ∧
        ∃ nt, move_one nb dir size = some nt ∧ cellAt grid nt = Cell.Reachable)) ∧
    ((¬ ∃ nb, move_one boulder dir size = some nb ∧ cellAt grid nb = Cell.Reachable ∧
        ∃ nt, move_one nb dir size = some nt ∧ cellAt grid nt = Cell.Reachable) →
      extend_state boulder dir grid size = Except.ok none) := by
  constructor
  · constructor
    · rintro ⟨c, hc⟩
      obtain ⟨nb, nt, hm1, hr1, hm2, hr2, _⟩ := (extend_state_ok_some_iff hcell c).mp hc
      exact ⟨nb, hm1, hr1, nt, hm2, hr2⟩
    · rintro ⟨nb, hm1, hr1, nt, hm2, hr2⟩
      exact ⟨_, (extend_state_ok_some_iff hcell _).mpr ⟨nb, nt, hm1, hr1, hm2, hr2, rfl⟩⟩
  · exact extend_state_ok_none_of hcell

/-- Witness for C2 at a concrete 3 by 3 grid with a legal rightward push. -/
theorem extend_state_legality_witness :
    (0 < 3 ∧ ([Cell.Boulder, Cell.Reachable, Cell.Reachable, Cell.Unreachable, Cell.Unreachable,
      Cell.Unreachable, Cell.Unreachable, Cell.Unreachable, Cell.Unreachable] : List Cell).length
        = 3 * 3) ∧
    ((∃ c, extend_state 0 Direction.Right [Cell.Boulder, Cell.Reachable, Cell.Reachable,
        Cell.Unreachable, Cell.Unreachable, Cell.Unreachable, Cell.Unreachable, Cell.Unreachable,
        Cell.Unreachable] 3 = Except.ok (some c)) ↔
      (∃ nb, move_one 0 Direction.Right 3 = some nb ∧
        cellAt [Cell.Boulder, Cell.Reachable, Cell.Reachable, Cell.Unreachable, Cell.Unreachable,
          Cell.Unreachable, Cell.Unreachable, Cell.Unreachable, Cell.Unreachable] nb
          = Cell.Reachable ∧
        ∃ nt, move_one nb Direction.Right 3 = some nt ∧
          cellAt [Cell.Boulder, Cell.Reachable, Cell.Reachable, Cell.Unreachable, Cell.Unreachable,
            Cell.Unreachable, Cell.Unreachable, Cell.Unreachable, Cell.Unreachable] nt
            = Cell.Reachable)) ∧
    ((¬ ∃ nb, move_one 0 Direction.Right 3 = some nb ∧
        cellAt [Cell.Boulder, Cell.Reachable, Cell.Reachable, Cell.Unreachable, Cell.Unreachable,
          Cell.Unreachable, Cell.Unreachable, Cell.Unreachable, Cell.Unreachable] nb
          = Cell.Reachable ∧
        ∃ nt, move_one nb Direction.Right 3 = some nt ∧
          cellAt [Cell.Boulder, Cell.Reachable, Cell.Reachable, Cell.Unreachable, Cell.Unreachable,
            Cell.Unreachable, Cell.Unreachable, Cell.Unreachable, Cell.Unreachable] nt
            = Cell.Reachable) →
      extend_state 0 Direction.Right [Cell.Boulder, Cell.Reachable, Cell.Reachable,
        Cell.Unreachable, Cell.Unreachable, Cell.Unreachable, Cell.Unreachable, Cell.Unreachable,
        Cell.Unreachable] 3 = Except.ok none) :=
  ⟨⟨by decide, by decide⟩,
    extend_state_legality 3 _ 0 Direction.Right (by decide) (by decide) (Or.inl (by decide))⟩

/-- C3: whenever `extend_state` succeeds, the returned configuration is exactly
the input grid with the vacated boulder cell updated (Boulder to Unreachable,
BoulderInHole to Hole), the landing cell set to Boulder, every Reachable marker
reset to Unreachable, and the flood fill re-run from the cell two steps away in
the push direction; the input grid itself is a pure value and is never
mutated. -/
theorem extend_state_success_pipeline (size : Nat) (grid out : List Cell) (boulder : Nat)
    (dir : Direction) (hsz : 0 < size)
    (hcell : cellAt grid boulder = Cell.Boulder ∨ cellAt grid boulder = Cell.BoulderInHole)
    (hrun : extend_state boulder dir grid size = Except.ok (some out)) :
    ∃ nb nt, move_one boulder dir size = some nb ∧ move_one nb dir size = some nt ∧
      out = fill_reachable_cells nt
        (clear_reachable_marks ((vacate_boulder_cell grid boulder).set nb Cell.Boulder)) size := by
  obtain ⟨nb, nt, hm1, _, hm2, _, hout⟩ := (extend_state_ok_some_iff hcell out).mp hrun
  exact ⟨nb, nt, hm1, hm2, hout⟩

/-- Witness for C3 at a concrete 3 by 3 grid. -/
theorem extend_state_success_pipeline_witness :
    ∃ nb nt, move_one 0 Direction.Right 3 = some nb ∧ move_one nb Direction.Right 3 = some nt ∧
      ([Cell.Reachable, Cell.Boulder, Cell.Reachable, Cell.Reachable, Cell.Reachable,
        Cell.Reachable, Cell.Reachable, Cell.Reachable, Cell.Reachable] : List Cell) =
        fill_reachable_cells nt
          (clear_reachable_marks ((vacate_boulder_cell [Cell.Boulder, Cell.Reachable,
            Cell.Reachable, Cell.Unreachable, Cell.Unreachable, Cell.Unreachable, Cell.Unreachable,
            Cell.Unreachable, Cell.Unreachable] 0).set nb Cell.Boulder)) 3 :=
  extend_state_success_pipeline 3 _ _ 0 Direction.Right (by decide) (Or.inl (by decide))
    (by decide)

/-- C7: under `extend_state`'s precondition, a landing cell currently holding
Hole makes the push illegal (Hole is a distinct tag from Reachable), and a
successful push always writes Boulder — never BoulderInHole — into the landing
cell of the produced configuration. -/
theorem extend_state_hole_landing (size : Nat) (grid : List Cell) (boulder : Nat)
    (dir : Direction) (hsz : 0 < size)
    (hcell : cellAt grid boulder = Cell.Boulder ∨ cellAt grid boulder = Cell.BoulderInHole) :
    (∀ nb, move_one boulder dir size = some nb → cellAt grid nb = Cell.Hole →
      extend_state boulder dir grid size = Except.ok none) ∧
    (∀ out nb, extend_state boulder dir grid size = Except.ok (some out) →
      move_one boulder dir size = some nb → cellAt out nb = Cell.Boulder) := by
  constructor
  · intro nb hm hHole
    apply extend_state_ok_none_of hcell
    rintro ⟨nb', hm', hr', -⟩
    rw [hm] at hm'
    cases hm'
    rw [hHole] at hr'
    exact absurd hr' (by decide)
  · intro out nb hrun hm
    obtain ⟨nb', nt, hm1, hr1, hm2, hr2, hout⟩ := (extend_state_ok_some_iff hcell out).mp hrun
    rw [hm] at hm1
    cases hm1
    have hnb_lt : nb < grid.length := cellAt_lt_of_ne_default (by rw [hr1]; decide)
    have hnb_lt_v : nb < (vacate_boulder_cell grid boulder).length := by
      rw [vacate_boulder_cell_length]; exact hnb_lt
    have hg2 : cellAt ((vacate_boulder_cell grid boulder).set nb Cell.Boulder) nb
        = Cell.Boulder := cellAt_set_self hnb_lt_v _
    have hnb_lt_g2 : nb < ((vacate_boulder_cell grid boulder).set nb Cell.Boulder).length := by
      rw [List.length_set]; exact hnb_lt_v
    have hg3 : cellAt (clear_reachable_marks ((vacate_boulder_cell grid boulder).set nb
        Cell.Boulder)) nb = Cell.Boulder := by
      unfold clear_reachable_marks
      rw [cellAt_map hnb_lt_g2, hg2]
      decide
    have hUR := fill_reachable_cells_onlyUR nt
      (clear_reachable_marks ((vacate_boulder_cell grid boulder).set nb Cell.Boulder)) size
    rw [← hout] at hUR
    rcases hUR.2 nb with h | h
    · rw [h, hg3]
    · rw [hg3] at h
      exact absurd h.1 (by decide)

/-- Witness for C7 at a concrete 3 by 3 grid. -/
theorem extend_state_hole_landing_witness :
    (∀ nb, move_one 3 Direction.Up 3 = some nb →
      cellAt [Cell.Hole, Cell.Reachable, Cell.Reachable, Cell.Boulder, Cell.Reachable,
        Cell.Reachable, Cell.Reachable, Cell.Reachable, Cell.Reachable] nb = Cell.Hole →
      extend_state 3 Direction.Up [Cell.Hole, Cell.Reachable, Cell.Reachable, Cell.Boulder,
        Cell.Reachable, Cell.Reachable, Cell.Reachable, Cell.Reachable, Cell.Reachable] 3
        = Except.ok none) ∧
    (∀ out nb, extend_state 3 Direction.Up [Cell.Hole, Cell.Reachable, Cell.Reachable,
        Cell.Boulder, Cell.Reachable, Cell.Reachable, Cell.Reachable, Cell.Reachable,
        Cell.Reachable] 3 = Except.ok (some out) →
      move_one 3 Direction.Up 3 = some nb → cellAt out nb = Cell.Boulder) :=
  extend_state_hole_landing 3 _ 3 Direction.Up (by decide) (Or.inl (by decide))

end ClaimTheoremsExtend

section ClaimTheoremsGraphOps

/-- C8: `insert_state` fails fast (modelled as `none`) when the configuration is
already present; otherwise it assigns the next sequential id — the number of
configurations present before the call — registers the configuration in both
direction mappings, gives it an empty neighbor list, leaves all other entries
unchanged, and returns that id. -/
theorem insert_state_spec (g : StateGraph) (s : List Cell) :
    (g.contains_state s → g.insert_state s = none) ∧
    (¬ g.contains_state s → ∃ g', g.insert_state s = some (g', g.len) ∧
      g'.len = g.len + 1 ∧
      alistLookup s g'.state_to_id = some g.len ∧
      g'.get_state g.len = some s ∧
      g'.get_neighbors g.len = some [] ∧
      (∀ t, ¬ t = s → alistLookup t g'.state_to_id = alistLookup t g.state_to_id) ∧
      (∀ i, ¬ i = g.len → g'.get_state i = g.get_state i ∧
        g'.get_neighbors i = g.get_neighbors i)) := by
  constructor
  · intro h
    simp [StateGraph.insert_state, h]
  · intro h
    rw [StateGraph.insert_state, if_neg h]
    refine ⟨_, rfl, ?_, ?_, ?_, ?_, ?_, ?_⟩
    · simp [StateGraph.len]
    · exact alistLookup_cons_self
    · exact alistLookup_cons_self
    · exact alistLookup_cons_self
    · intro t ht
      exact alistLookup_cons_ne (fun he => ht he.symm)
    · intro i hi
      exact ⟨alistLookup_cons_ne (fun he => hi he.symm),
        alistLookup_cons_ne (fun he => hi he.symm)⟩

/-- Witness for C8: inserting a fresh configuration into a one-node graph. -/
theorem insert_state_spec_witness :
    ¬ (StateGraph.new [Cell.Unreachable]).contains_state [Cell.Boulder] ∧
    (∃ g', (StateGraph.new [Cell.Unreachable]).insert_state [Cell.Boulder]
        = some (g', (StateGraph.new [Cell.Unreachable]).len) ∧
      g'.len = (StateGraph.new [Cell.Unreachable]).len + 1 ∧
      alistLookup [Cell.Boulder] g'.state_to_id = some (StateGraph.new [Cell.Unreachable]).len ∧
      g'.get_state (StateGraph.new [Cell.Unreachable]).len = some [Cell.Boulder] ∧
      g'.get_neighbors (StateGraph.new [Cell.Unreachable]).len = some [] ∧
      (∀ t, ¬ t = [Cell.Boulder] → alistLookup t g'.state_to_id
        = alistLookup t (StateGraph.new [Cell.Unreachable]).state_to_id) ∧
      (∀ i, ¬ i = (StateGraph.new [Cell.Unreachable]).len →
        g'.get_state i = (StateGraph.new [Cell.Unreachable]).get_state i ∧
        g'.get_neighbors i = (StateGraph.new [Cell.Unreachable]).get_neighbors i)) :=
  ⟨by decide, (insert_state_spec (StateGraph.new [Cell.Unreachable]) [Cell.Boulder]).2 (by decide)⟩

/-- C9: `connect_states` with both endpoint configurations inserted appends the
target's id to the end of the source's neighbor list and changes nothing else;
it fails fatally (modelled as `none`) when the source configuration is absent
from the id mapping; repeated calls with the same pair append duplicate edges,
preserved in call order. -/
theorem connect_states_spec (g : StateGraph) (a b : List Cell) :
    (∀ fid tid l, alistLookup a g.state_to_id = some fid →
      alistLookup b g.state_to_id = some tid →
      alistLookup fid g.neighbors = some l →
      ∃ g', g.connect_states a b = some g' ∧
        g'.state_to_id = g.state_to_id ∧ g'.id_to_state = g.id_to_state ∧
        alistLookup fid g'.neighbors = some (l ++ [tid]) ∧
        (∀ j, ¬ j = fid → alistLookup j g'.neighbors = alistLookup j g.neighbors)) ∧
    (alistLookup a g.state_to_id = none → g.connect_states a b = none) ∧
    (∀ fid tid l, alistLookup a g.state_to_id = some fid →
      alistLookup b g.state_to_id = some tid →
      alistLookup fid g.neighbors = some l →
      ∃ g' g'', g.connect_states a b = some g' ∧ g'.connect_states a b = some g'' ∧
        alistLookup fid g''.neighbors = some (l ++ [tid] ++ [tid])) := by
  have base : ∀ (h : StateGraph) (fid tid : Nat) (l : List Nat),
      alistLookup a h.state_to_id = some fid → alistLookup b h.state_to_id = some tid →
      alistLookup fid h.neighbors = some l →
      ∃ h', h.connect_states a b = some h' ∧
        h'.state_to_id = h.state_to_id ∧ h'.id_to_state = h.id_to_state ∧
        alistLookup fid h'.neighbors = some (l ++ [tid]) ∧
        (∀ j, ¬ j = fid → alistLookup j h'.neighbors = alistLookup j h.neighbors) := by
    intro h fid tid l hf ht hl
    refine ⟨{ h with neighbors := alistUpdate fid (fun nl => nl ++ [tid]) h.neighbors },
      ?_, rfl, rfl, ?_, ?_⟩
    · rw [StateGraph.connect_states, hf, ht]
    · rw [alistLookup_update_self, hl]
      rfl
    · intro j hj
      exact alistLookup_update_ne hj _ _
  refine ⟨base g, ?_, ?_⟩
  · intro h
    rw [StateGraph.connect_states, h]
  · intro fid tid l hf ht hl
    obtain ⟨g', hc1, hs1, hi1, hn1, _⟩ := base g fid tid l hf ht hl
    obtain ⟨g'', hc2, _, _, hn2, _⟩ := base g' fid tid (l ++ [tid]) (hs1 ▸ hf) (hs1 ▸ ht) hn1
    exact ⟨g', g'', hc1, hc2, by rw [hn2]⟩

/-- Witness for C9: connecting the two nodes of a concrete two-node graph. -/
theorem connect_states_spec_witness :
    (∀ fid tid l,
      alistLookup [Cell.Boulder] (StateGraph.mk [([Cell.Boulder], 0), ([Cell.Hole], 1)]
        [(0, [Cell.Boulder]), (1, [Cell.Hole])] [(0, []), (1, [])]).state_to_id = some fid →
      alistLookup [Cell.Hole] (StateGraph.mk [([Cell.Boulder], 0), ([Cell.Hole], 1)]
        [(0, [Cell.Boulder]), (1, [Cell.Hole])] [(0, []), (1, [])]).state_to_id = some tid →
      alistLookup fid (StateGraph.mk [([Cell.Boulder], 0), ([Cell.Hole], 1)]
        [(0, [Cell.Boulder]), (1, [Cell.Hole])] [(0, []), (1, [])]).neighbors = some l →
      ∃ g', (StateGraph.mk [([Cell.Boulder], 0), ([Cell.Hole], 1)]
          [(0, [Cell.Boulder]), (1, [Cell.Hole])] [(0, []), (1, [])]).connect_states
          [Cell.Boulder] [Cell.Hole] = some g' ∧
        g'.state_to_id = (StateGraph.mk [([Cell.Boulder], 0), ([Cell.Hole], 1)]
          [(0, [Cell.Boulder]), (1, [Cell.Hole])] [(0, []), (1, [])]).state_to_id ∧
        g'.id_to_state = (StateGraph.mk [([Cell.Boulder], 0), ([Cell.Hole], 1)]
          [(0, [Cell.Boulder]), (1, [Cell.Hole])] [(0, []), (1, [])]).id_to_state ∧
        alistLookup fid g'.neighbors = some (l ++ [tid]) ∧
        (∀ j, ¬ j = fid → alistLookup j g'.neighbors
          = alistLookup j (StateGraph.mk [([Cell.Boulder], 0), ([Cell.Hole], 1)]
            [(0, [Cell.Boulder]), (1, [Cell.Hole])] [(0, []), (1, [])]).neighbors)) :=
  (connect_states_spec (StateGraph.mk [([Cell.Boulder], 0), ([Cell.Hole], 1)]
    [(0, [Cell.Boulder]), (1, [Cell.Hole])] [(0, []), (1, [])]) [Cell.Boulder] [Cell.Hole]).1

end ClaimTheoremsGraphOps

section GraphInvLemmas

theorem mem_of_getLast?_eq {α : Type} : ∀ {l : List α} {a : α}, l.getLast? = some a → a ∈ l
  | [], _, h => by cases h
  | [x], a, h => by
    rw [List.getLast?_singleton] at h
    cases h
    exact List.mem_singleton_self _
  | x :: y :: l, a, h => by
    rw [List.getLast?_cons_cons] at h
    exact List.mem_cons_of_mem _ (mem_of_getLast?_eq h)

theorem getLast?_cons_of_ne_nil {α : Type} (a : α) :
    ∀ {l : List α}, l ≠ [] → (a :: l).getLast? = l.getLast?
  | [], h => absurd rfl h
  | _ :: _, _ => List.getLast?_cons_cons

theorem graphInv_new (root : List Cell) : GraphInv root (StateGraph.new root) := by
  constructor
  · simp [StateGraph.new, StateGraph.insert_state, StateGraph.contains_state, alistLookup,
      List.range_succ]
  · simp [StateGraph.new, StateGraph.insert_state, StateGraph.contains_state, alistLookup]
  · simp [StateGraph.new, StateGraph.insert_state, StateGraph.contains_state, alistLookup]
  · simp [StateGraph.new, StateGraph.insert_state, StateGraph.contains_state, alistLookup,
      List.range_succ]
  · simp [StateGraph.new, StateGraph.insert_state, StateGraph.contains_state, alistLookup]

theorem graphInv_insert {root : List Cell} {g g' : StateGraph} {s : List Cell} {id : Nat}
    (hg : GraphInv root g) (h : g.insert_state s = some (g', id)) : GraphInv root g' := by
  rw [StateGraph.insert_state] at h
  by_cases hc : g.contains_state s
  · rw [if_pos hc] at h
    cases h
  · rw [if_neg hc] at h
    injection h with h1
    injection h1 with h2 h3
    subst h2
    have hs_notmem : ¬ s ∈ g.state_to_id.map Prod.fst := fun hm =>
      hc ((alistLookup_isSome_iff s g.state_to_id).mpr hm)
    constructor
    · simp only [List.map_cons, List.length_cons, List.range_succ, List.reverse_append,
        List.reverse_singleton, List.singleton_append, List.cons.injEq, eq_self_iff_true,
        true_and]
      exact hg.ids_eq
    · exact List.nodup_cons.mpr ⟨hs_notmem, hg.keys_nodup⟩
    · simp only [List.map_cons]
      exact congrArg _ hg.inverse
    · simp only [List.map_cons, List.length_cons, List.range_succ, List.reverse_append,
        List.reverse_singleton, List.singleton_append, List.cons.injEq, eq_self_iff_true,
        true_and]
      exact hg.nb_keys
    · have hne : g.state_to_id ≠ [] := by
        intro he
        have hl := hg.root_last
        rw [he] at hl
        cases hl
      show ((s, g.state_to_id.length) :: g.state_to_id).getLast? = some (root, 0)
      rw [getLast?_cons_of_ne_nil _ hne]
      exact hg.root_last

theorem graphInv_connect {root : List Cell} {g g' : StateGraph} {a b : List Cell}
    (hg : GraphInv root g) (h : g.connect_states a b = some g') : GraphInv root g' := by
  rw [StateGraph.connect_states] at h
  rcases hfa : alistLookup a g.state_to_id with _ | fid
  · rw [hfa] at h
    cases h
  rcases hfb : alistLookup b g.state_to_id with _ | tid
  · rw [hfa, hfb] at h
    cases h
  rw [hfa, hfb] at h
  injection h with h1
  subst h1
  exact ⟨hg.ids_eq, hg.keys_nodup, hg.inverse,
    by rw [show ({ g with neighbors := alistUpdate fid (fun l => l ++ [tid]) g.neighbors }
        : StateGraph).neighbors = alistUpdate fid (fun l => l ++ [tid]) g.neighbors from rfl,
      alistUpdate_map_fst]; exact hg.nb_keys,
    hg.root_last⟩

theorem graphInv_of_built {root : List Cell} {g : StateGraph} (hb : Built root g) :
    GraphInv root g := by
  induction hb with
  | base => exact graphInv_new root
  | ins _ hins ih => exact graphInv_insert ih hins
  | conn _ hconn ih => exact graphInv_connect ih hconn

end GraphInvLemmas

section ClaimTheoremC4

/-- C4: in every state graph built by the constructor followed by successful
`insert_state` and `connect_states` calls, the assigned ids are exactly
0 .. len-1 with no gaps, the constructor's configuration holds id 0, the two
direction mappings are mutually inverse (so distinct ids hold distinct
configurations), and every id owning a neighbor list is an inserted id. -/
theorem built_state_graph_invariants (root : List Cell) (g : StateGraph) (hb : Built root g) :
    (∀ i, g.contains_id i ↔ i < g.len) ∧
    g.get_state 0 = some root ∧
    (∀ s i, alistLookup s g.state_to_id = some i ↔ alistLookup i g.id_to_state = some s) ∧
    (∀ i j si sj, ¬ i = j → g.get_state i = some si → g.get_state j = some sj → ¬ si = sj) ∧
    (∀ id, (g.get_neighbors id).isSome → g.contains_id id) := by
  have hi := graphInv_of_built hb
  have hkeys_ids : g.id_to_state.map Prod.fst = g.state_to_id.map Prod.snd := by
    rw [hi.inverse, List.map_map]
    rfl
  have hid_nodup : (g.id_to_state.map Prod.fst).Nodup := by
    rw [hkeys_ids, hi.ids_eq]
    exact List.nodup_reverse.mpr (List.nodup_range _)
  have hmem_ids : ∀ i, i ∈ g.id_to_state.map Prod.fst ↔ i < g.len := by
    intro i
    rw [hkeys_ids, hi.ids_eq, List.mem_reverse, List.mem_range]
    exact Iff.rfl
  have hcontains : ∀ i, g.contains_id i ↔ i < g.len := fun i =>
    (alistLookup_isSome_iff i g.id_to_state).trans (hmem_ids i)
  have hinv : ∀ s i, alistLookup s g.state_to_id = some i ↔
      alistLookup i g.id_to_state = some s := by
    intro s i
    constructor
    · intro h
      have hm : (s, i) ∈ g.state_to_id := alistLookup_mem h
      have hm2 : (i, s) ∈ g.id_to_state := by
        rw [hi.inverse]
        exact List.mem_map_of_mem _ hm
      exact alistLookup_of_mem_nodup hid_nodup hm2
    · intro h
      have hm : (i, s) ∈ g.id_to_state := alistLookup_mem h
      rw [hi.inverse] at hm
      obtain ⟨p, hp, hfp⟩ := List.mem_map.mp hm
      injection hfp with h1 h2
      have hps : (s, i) ∈ g.state_to_id := by
        have : p = (s, i) := by
          obtain ⟨p1, p2⟩ := p
          simp at h1 h2
          rw [h1, h2]
        exact this ▸ hp
      exact alistLookup_of_mem_nodup hi.keys_nodup hps
  refine ⟨hcontains, ?_, hinv, ?_, ?_⟩
  · have hm : (root, 0) ∈ g.state_to_id := mem_of_getLast?_eq hi.root_last
    have hm2 : ((0 : Nat), root) ∈ g.id_to_state := by
      rw [hi.inverse]
      exact List.mem_map_of_mem _ hm
    exact alistLookup_of_mem_nodup hid_nodup hm2
  · intro i j si sj hij hgi hgj hss
    subst hss
    have h1 : alistLookup si g.state_to_id = some i := (hinv si i).mpr hgi
    have h2 : alistLookup si g.state_to_id = some j := (hinv si j).mpr hgj
    rw [h1] at h2
    exact hij (Option.some.inj h2)
  · intro id hns
    have : id ∈ g.neighbors.map Prod.fst := (alistLookup_isSome_iff id g.neighbors).mp hns
    rw [hi.nb_keys] at this
    rw [hcontains id]
    rw [List.mem_reverse, List.mem_range] at this
    exact this

/-- Witness for C4 at the freshly constructed one-node graph. -/
theorem built_state_graph_invariants_witness :
    (∀ i, (StateGraph.new [Cell.Boulder]).contains_id i ↔ i < (StateGraph.new [Cell.Boulder]).len) ∧
    (StateGraph.new [Cell.Boulder]).get_state 0 = some [Cell.Boulder] ∧
    (∀ s i, alistLookup s (StateGraph.new [Cell.Boulder]).state_to_id = some i ↔
      alistLookup i (StateGraph.new [Cell.Boulder]).id_to_state = some s) ∧
    (∀ i j si sj, ¬ i = j → (StateGraph.new [Cell.Boulder]).get_state i = some si →
      (StateGraph.new [Cell.Boulder]).get_state j = some sj → ¬ si = sj) ∧
    (∀ id, ((StateGraph.new [Cell.Boulder]).get_neighbors id).isSome →
      (StateGraph.new [Cell.Boulder]).contains_id id) :=
  built_state_graph_invariants [Cell.Boulder] (StateGraph.new [Cell.Boulder]) Built.base

end ClaimTheoremC4

section ExplorerLemmas

theorem cellCode_lt (c : Cell) : cellCode c < 5 := by cases c <;> decide

theorem cellCode_inj {c d : Cell} (h : cellCode c = cellCode d) : c = d := by
  cases c <;> cases d <;> first
    | rfl
    | exact absurd h (by decide)

theorem encodeCells_lt : ∀ l : List Cell, encodeCells l < 5 ^ l.length
  | [] => by simp [encodeCells]
  | c :: l => by
    have h1 := cellCode_lt c
    have h2 := encodeCells_lt l
    simp only [encodeCells, List.length_cons, pow_succ]
    omega

theorem encodeCells_inj : ∀ {l1 l2 : List Cell}, l1.length = l2.length →
    encodeCells l1 = encodeCells l2 → l1 = l2
  | [], [], _, _ => rfl
  | [], _ :: _, h, _ => by cases h
  | _ :: _, [], h, _ => by cases h
  | c :: l1, d :: l2, hlen, henc => by
    simp only [encodeCells] at henc
    have hc := cellCode_lt c
    have hd := cellCode_lt d
    have h1 : cellCode c = cellCode d ∧ encodeCells l1 = encodeCells l2 := by omega
    have hcd := cellCode_inj h1.1
    have hll : l1.length = l2.length := by simpa using hlen
    rw [hcd, encodeCells_inj hll h1.2]

theorem wflen_card {L : Nat} {g : StateGraph} (h : WFLen L g) : g.len ≤ 5 ^ L := by
  have hnd : ((g.state_to_id.map Prod.fst).map encodeCells).Nodup := by
    refine List.Nodup.map_on ?_ h.keys_nodup
    intro x hx y hy hxy
    exact encodeCells_inj ((h.keys_len x hx).trans (h.keys_len y hy).symm) hxy
  have hsub : ∀ n ∈ (g.state_to_id.map Prod.fst).map encodeCells, n < 5 ^ L := by
    intro n hn
    obtain ⟨s, hs, rfl⟩ := List.mem_map.mp hn
    have hb := encodeCells_lt s
    rwa [h.keys_len s hs] at hb
  calc g.len = ((g.state_to_id.map Prod.fst).map encodeCells).length := by
        simp [StateGraph.len]
    _ = ((g.state_to_id.map Prod.fst).map encodeCells).toFinset.card :=
        (List.toFinset_card_of_nodup hnd).symm
    _ ≤ (Finset.range (5 ^ L)).card := Finset.card_le_card
        (fun n hn => Finset.mem_range.mpr (hsub n (List.mem_toFinset.mp hn)))
    _ = 5 ^ L := Finset.card_range _

theorem contains_state_iff_mem {g : StateGraph} {s : List Cell} :
    g.contains_state s ↔ s ∈ g.state_to_id.map Prod.fst :=
  alistLookup_isSome_iff s g.state_to_id

theorem contains_state_congr {g g' : StateGraph} (h : g'.state_to_id = g.state_to_id)
    (t : List Cell) : g'.contains_state t = g.contains_state t := by
  rw [StateGraph.contains_state, StateGraph.contains_state, h]

theorem len_congr {g g' : StateGraph} (h : g'.state_to_id = g.state_to_id) :
    g'.len = g.len := by
  rw [StateGraph.len, StateGraph.len, h]

theorem wflen_congr {L : Nat} {g g' : StateGraph} (h : g'.state_to_id = g.state_to_id)
    (hw : WFLen L g) : WFLen L g' := ⟨by rw [h]; exact hw.keys_nodup, by rw [h]; exact hw.keys_len⟩

theorem insert_state_ok {g : StateGraph} {s : List Cell} (h : ¬ g.contains_state s) :
    g.insert_state s = some (⟨(s, g.len) :: g.state_to_id, (g.len, s) :: g.id_to_state,
      (g.len, []) :: g.neighbors⟩, g.len) := by
  rw [StateGraph.insert_state, if_neg h]
  rfl

theorem connect_states_ok {g : StateGraph} {a b : List Cell} (ha : g.contains_state a)
    (hb : g.contains_state b) : ∃ g', g.connect_states a b = some g' ∧
      g'.state_to_id = g.state_to_id ∧ g'.id_to_state = g.id_to_state := by
  rcases hfa : alistLookup a g.state_to_id with _ | fid
  · simp [StateGraph.contains_state, hfa] at ha
  rcases hfb : alistLookup b g.state_to_id with _ | tid
  · simp [StateGraph.contains_state, hfb] at hb
  exact ⟨{ g with neighbors := alistUpdate fid (fun l => l ++ [tid]) g.neighbors },
    by rw [StateGraph.connect_states, hfa, hfb], rfl, rfl⟩

theorem contains_state_cons {sti : List (List Cell × Nat)} {s t : List Cell} {id : Nat}
    {its : List (Nat × List Cell)} {nbl : List (Nat × List Nat)}
    (h : (alistLookup t sti).isSome) :
    (StateGraph.mk ((s, id) :: sti) its nbl).contains_state t := by
  rw [StateGraph.contains_state]
  by_cases hst : s = t
  · subst hst
    simp [alistLookup]
  · rw [alistLookup_cons_ne hst]
    exact h

theorem contains_state_cons_self {sti : List (List Cell × Nat)} {s : List Cell} {id : Nat}
    {its : List (Nat × List Cell)} {nbl : List (Nat × List Nat)} :
    (StateGraph.mk ((s, id) :: sti) its nbl).contains_state s := by
  simp [StateGraph.contains_state, alistLookup]

theorem wflen_cons {L : Nat} {g : StateGraph} {s : List Cell} {id : Nat}
    {its : List (Nat × List Cell)} {nbl : List (Nat × List Nat)} (hw : WFLen L g)
    (hmem : ¬ g.contains_state s) (hslen : s.length = L) :
    WFLen L (StateGraph.mk ((s, id) :: g.state_to_id) its nbl) := by
  have hnotmem : ¬ s ∈ g.state_to_id.map Prod.fst := fun hm =>
    hmem (contains_state_iff_mem.mpr hm)
  constructor
  · exact List.nodup_cons.mpr ⟨hnotmem, hw.keys_nodup⟩
  · intro t ht
    rcases List.mem_cons.mp ht with h | h
    · rw [h]
      exact hslen
    · exact hw.keys_len t h

theorem cellAt_of_mem_enum {state : List Cell} {idx : Nat} {c : Cell}
    (h : (idx, c) ∈ state.enum) : cellAt state idx = c := by
  have hg := List.mk_mem_enum_iff_getElem?.mp h
  simp [cellAt, List.getD, hg]

theorem fill_reachable_cells_length (start : Nat) (g : List Cell) (size : Nat) :
    (fill_reachable_cells start g size).length = g.length :=
  (fill_reachable_cells_onlyUR start g size).1

theorem extend_state_length {boulder : Nat} {dir : Direction} {grid : List Cell} {size : Nat}
    {out : List Cell} (h : extend_state boulder dir grid size = Except.ok (some out)) :
    out.length = grid.length := by
  by_cases hcell : cellAt grid boulder = Cell.Boulder ∨ cellAt grid boulder = Cell.BoulderInHole
  · obtain ⟨nb, nt, _, _, _, _, hout⟩ := (extend_state_ok_some_iff hcell out).mp h
    rw [hout, fill_reachable_cells_length, clear_reachable_marks_length, List.length_set,
      vacate_boulder_cell_length]
  · rw [extend_state, if_neg hcell] at h
    cases h

theorem extend_state_ok_of_cell {boulder : Nat} {dir : Direction} {grid : List Cell}
    {size : Nat}
    (hcell : cellAt grid boulder = Cell.Boulder ∨ cellAt grid boulder = Cell.BoulderInHole) :
    ∃ r, extend_state boulder dir grid size = Except.ok r := by
  rw [extend_state, if_pos hcell]
  exact ⟨_, rfl⟩

theorem explorer_total : ∀ fuel : Nat,
    (∀ L size state found, WFLen L found → state.length = L → found.contains_state state →
      5 ^ L < found.len + fuel →
      ∃ g, handle_next_state fuel state size found = Except.ok g ∧ WFLen L g ∧
        found.len ≤ g.len ∧ ∀ s, found.contains_state s → g.contains_state s) ∧
    (∀ L size state idx, state.length = L →
      (cellAt state idx = Cell.Boulder ∨ cellAt state idx = Cell.BoulderInHole) →
      ∀ dirs found, WFLen L found → found.contains_state state →
      5 ^ L < found.len + fuel + 1 →
      ∃ g, handleDirs fuel state size idx dirs found = Except.ok g ∧ WFLen L g ∧
        found.len ≤ g.len ∧ ∀ s, found.contains_state s → g.contains_state s) ∧
    (∀ L size state, state.length = L →
      ∀ cells, (∀ p ∈ cells, cellAt state p.1 = p.2) →
      ∀ found, WFLen L found → found.contains_state state →
      5 ^ L < found.len + fuel + 1 →
      ∃ g, handleCells fuel state size cells found = Except.ok g ∧ WFLen L g ∧
        found.len ≤ g.len ∧ ∀ s, found.contains_state s → g.contains_state s) := by
  intro fuel
  induction fuel using Nat.strong_induction_on with
  | _ fuel IH =>
  have hmain : ∀ L size state found, WFLen L found → state.length = L →
      found.contains_state state → 5 ^ L < found.len + fuel →
      ∃ g, handle_next_state fuel state size found = Except.ok g ∧ WFLen L g ∧
        found.len ≤ g.len ∧ ∀ s, found.contains_state s → g.contains_state s := by
    intro L size state found hw hlen hcont hbound
    cases fuel with
    | zero =>
      have hcard := wflen_card hw
      exact absurd hbound (by omega)
    | succ f =>
      obtain ⟨g, hg, hwg, hlg, hmono⟩ := (IH f (by omega)).2.2 L size state hlen state.enum
        (fun p hp => by
          obtain ⟨i, c⟩ := p
          exact cellAt_of_mem_enum hp)
        found hw hcont (by omega)
      exact ⟨g, by simp only [handle_next_state]; exact hg, hwg, hlg, hmono⟩
  have hdirs : ∀ L size state idx, state.length = L →
      (cellAt state idx = Cell.Boulder ∨ cellAt state idx = Cell.BoulderInHole) →
      ∀ dirs found, WFLen L found → found.contains_state state →
      5 ^ L < found.len + fuel + 1 →
      ∃ g, handleDirs fuel state size idx dirs found = Except.ok g ∧ WFLen L g ∧
        found.len ≤ g.len ∧ ∀ s, found.contains_state s → g.contains_state s := by
    intro L size state idx hlen hbcell dirs
    induction dirs with
    | nil =>
      intro found hw hcont hbound
      exact ⟨found, by simp only [handleDirs], hw, Nat.le_refl _, fun _ h => h⟩
    | cons dir rest ihdir =>
      intro found hw hcont hbound
      rcases hext : extend_state idx dir state size with e | r
      · obtain ⟨r', hr'⟩ := @extend_state_ok_of_cell idx dir state size hbcell
        rw [hext] at hr'
        cases hr'
      · cases r with
        | none =>
          obtain ⟨g, hg, hwg, hlg, hmono⟩ := ihdir found hw hcont hbound
          refine ⟨g, ?_, hwg, hlg, hmono⟩
          simp only [handleDirs]
          rw [hext]
          exact hg
        | some new_state =>
          have hnewlen : new_state.length = L := by
            rw [extend_state_length hext, hlen]
          by_cases hcts : found.contains_state new_state
          · obtain ⟨found1, hc1, hsame1, _⟩ := connect_states_ok hcont hcts
            have hw1 : WFLen L found1 := wflen_congr hsame1 hw
            have hcont1 : found1.contains_state state := by
              rw [contains_state_congr hsame1]
              exact hcont
            have hlen1 : found1.len = found.len := len_congr hsame1
            obtain ⟨g, hg, hwg, hlg, hmono⟩ := ihdir found1 hw1 hcont1 (by omega)
            refine ⟨g, ?_, hwg, by omega, ?_⟩
            · simp only [handleDirs, hext]
              rw [if_pos hcts, hc1]
              exact hg
            · intro s hs
              refine hmono s ?_
              rw [contains_state_congr hsame1]
              exact hs
          · have hins := insert_state_ok hcts
            set found1 : StateGraph := ⟨(new_state, found.len) :: found.state_to_id,
              (found.len, new_state) :: found.id_to_state,
              (found.len, []) :: found.neighbors⟩ with hfound1
            have hw1 : WFLen L found1 := wflen_cons hw hcts hnewlen
            have hcont1s : found1.contains_state state := contains_state_cons hcont
            have hcont1n : found1.contains_state new_state := contains_state_cons_self
            have hlen1 : found1.len = found.len + 1 := by
              simp [StateGraph.len, hfound1]
            obtain ⟨found2, hc2, hsame2, _⟩ := connect_states_ok hcont1s hcont1n
            have hw2 : WFLen L found2 := wflen_congr hsame2 hw1
            have hlen2 : found2.len = found1.len := len_congr hsame2
            have hcont2n : found2.contains_state new_state := by
              rw [contains_state_congr hsame2]
              exact hcont1n
            obtain ⟨g3, hg3, hw3, hlg3, hmono3⟩ := hmain L size new_state found2 hw2 hnewlen
              hcont2n (by omega)
            have hcont3s : g3.contains_state state := by
              refine hmono3 state ?_
              rw [contains_state_congr hsame2]
              exact hcont1s
            obtain ⟨g, hg, hwg, hlg, hmono4⟩ := ihdir g3 hw3 hcont3s (by omega)
            refine ⟨g, ?_, hwg, by omega, ?_⟩
            · simp only [handleDirs, hext]
              rw [if_neg hcts]
              simp only [hins, hc2, hg3]
              exact hg
            · intro s hs
              refine hmono4 s (hmono3 s ?_)
              rw [contains_state_congr hsame2]
              exact contains_state_cons hs
  have hcells : ∀ L size state, state.length = L →
      ∀ cells, (∀ p ∈ cells, cellAt state p.1 = p.2) →
      ∀ found, WFLen L found → found.contains_state state →
      5 ^ L < found.len + fuel + 1 →
      ∃ g, handleCells fuel state size cells found = Except.ok g ∧ WFLen L g ∧
        found.len ≤ g.len ∧ ∀ s, found.contains_state s → g.contains_state s := by
    intro L size state hlen cells
    induction cells with
    | nil =>
      intro _ found hw hcont hbound
      exact ⟨found, by simp only [handleCells], hw, Nat.le_refl _, fun _ h => h⟩
    | cons p rest ihc =>
      intro hfacts found hw hcont hbound
      obtain ⟨idx, cell⟩ := p
      have hfactrest : ∀ q ∈ rest, cellAt state q.1 = q.2 := fun q hq =>
        hfacts q (List.mem_cons_of_mem _ hq)
      by_cases hbc : cell = Cell.Boulder ∨ cell = Cell.BoulderInHole
      · have hcellidx : cellAt state idx = cell := hfacts (idx, cell) (List.mem_cons_self _ _)
        have hbcell : cellAt state idx = Cell.Boulder ∨ cellAt state idx = Cell.BoulderInHole := by
          rw [hcellidx]
          exact hbc
        obtain ⟨g1, hg1, hw1, hl1, hm1⟩ := hdirs L size state idx hlen hbcell DIRECTIONS found
          hw hcont hbound
        obtain ⟨g, hg, hwg, hlg, hmono⟩ := ihc hfactrest g1 hw1 (hm1 state hcont) (by omega)
        refine ⟨g, ?_, hwg, by omega, fun s hs => hmono s (hm1 s hs)⟩
        simp only [handleCells]
        rw [if_pos hbc, hg1]
        exact hg
      · obtain ⟨g, hg, hwg, hlg, hmono⟩ := ihc hfactrest found hw hcont hbound
        refine ⟨g, ?_, hwg, hlg, hmono⟩
        simp only [handleCells]
        rw [if_neg hbc]
        exact hg
  exact ⟨hmain, hdirs, hcells⟩

theorem stateGraph_new_eq (root : List Cell) :
    StateGraph.new root = ⟨[(root, 0)], [(0, root)], [(0, [])]⟩ := rfl

theorem find_solvable_states_ok (grid : List Cell) (tractor size fuel : Nat)
    (hfuel : 5 ^ grid.length ≤ fuel) :
    ∃ g, find_solvable_states fuel tractor grid size = Except.ok g := by
  rw [find_solvable_states]
  set grid2 := fill_reachable_cells tractor (grid.set tractor Cell.Unreachable) size with hg2
  have hlen2 : grid2.length = grid.length := by
    rw [hg2, fill_reachable_cells_length, List.length_set]
  rw [walk_states_graph_from]
  have hw : WFLen grid2.length (StateGraph.new grid2) := by
    rw [stateGraph_new_eq]
    constructor
    · simp
    · intro t ht
      simp at ht
      rw [ht]
  have hcont : (StateGraph.new grid2).contains_state grid2 := by
    rw [stateGraph_new_eq]
    exact contains_state_cons_self
  have hlen1 : (StateGraph.new grid2).len = 1 := by
    rw [stateGraph_new_eq]
    rfl
  obtain ⟨g, hg, _, _, _⟩ := (explorer_total fuel).1 grid2.length size grid2
    (StateGraph.new grid2) hw rfl hcont (by rw [hlen1, hlen2]; omega)
  exact ⟨g, hg⟩

end ExplorerLemmas

section ClaimTheoremsExplorer

/-- C1: for every initial grid, size and tractor index, the recursive
exploration terminates: the configuration space of a fixed grid length is
finite and every recursive call happens right after inserting a configuration
that was not in the graph, so with recursion fuel of at least 5 to the power of
the grid length the fuel never runs out. -/
theorem find_solvable_states_terminates (grid : List Cell) (tractor size fuel : Nat)
    (hfuel : 5 ^ grid.length ≤ fuel) :
    ¬ find_solvable_states fuel tractor grid size = Except.error RunErr.fuelOut := by
  obtain ⟨g, hg⟩ := find_solvable_states_ok grid tractor size fuel hfuel
  rw [hg]
  intro h
  cases h

/-- Witness for C1 on a one-cell grid with fuel 5. -/
theorem find_solvable_states_terminates_witness :
    5 ^ ([Cell.Boulder] : List Cell).length ≤ 5 ∧
    ¬ find_solvable_states 5 0 [Cell.Boulder] 1 = Except.error RunErr.fuelOut :=
  ⟨by decide, find_solvable_states_terminates [Cell.Boulder] 0 1 5 (by decide)⟩

/-- C10: with enough fuel and a positive grid size, exploration never reaches a
fail-fast branch: `extend_state` is called only on Boulder or BoulderInHole
cells, `insert_state` only on configurations checked to be absent, and
`connect_states` only with both endpoints inserted, so the whole run returns a
graph rather than a panic. -/
theorem find_solvable_states_no_panic (grid : List Cell) (tractor size fuel : Nat)
    (hsz : 0 < size) (hfuel : 5 ^ grid.length ≤ fuel) :
    ∃ g, find_solvable_states fuel tractor grid size = Except.ok g :=
  find_solvable_states_ok grid tractor size fuel hfuel

/-- Witness for C10 on a one-cell grid with fuel 5. -/
theorem find_solvable_states_no_panic_witness :
    (0 < 1 ∧ 5 ^ ([Cell.Boulder] : List Cell).length ≤ 5) ∧
    ∃ g, find_solvable_states 5 0 [Cell.Boulder] 1 = Except.ok g :=
  ⟨⟨by decide, by decide⟩, find_solvable_states_no_panic [Cell.Boulder] 0 1 5 (by decide)
    (by decide)⟩

end ClaimTheoremsExplorer

section BfsTraceLemmas

theorem shortestGraph_insert_source (sg : ShortestGraph) (par child : Nat) :
    (sg.insert par child).source = sg.source := by
  rw [ShortestGraph.insert]
  split <;> rfl

theorem shortestGraph_insert_nodup {sg : ShortestGraph} (par child : Nat)
    (h : (sg.parent.map Prod.fst).Nodup) : ((sg.insert par child).parent.map Prod.fst).Nodup := by
  rw [ShortestGraph.insert]
  split
  · exact h
  · next hns =>
    refine List.nodup_cons.mpr ⟨fun hm => hns ?_, h⟩
    exact (alistLookup_isSome_iff child sg.parent).mpr hm

theorem mem_insertVisited_self (x : Nat) (v : List Nat) : x ∈ insertVisited x v := by
  rw [insertVisited]
  split
  · next h => exact h
  · exact List.mem_cons_self _ _

theorem mem_insertVisited_of_mem {y : Nat} {v : List Nat} (x : Nat) (h : y ∈ v) :
    y ∈ insertVisited x v := by
  rw [insertVisited]
  split
  · exact h
  · exact List.mem_cons_of_mem _ h

theorem processNeighbors_spec (next : Nat) : ∀ (ns : List Nat) (visited queue : List Nat)
    (sh : ShortestGraph),
    (∀ e ∈ (processNeighbors next ns visited queue sh).2.2,
      ∃ x, e = BfsEvent.pushE x ∧ ¬ x ∈ visited) ∧
    (processNeighbors next ns visited queue sh).2.1.source = sh.source ∧
    ((sh.parent.map Prod.fst).Nodup →
      ((processNeighbors next ns visited queue sh).2.1.parent.map Prod.fst).Nodup)
  | [], visited, queue, sh => by
    refine ⟨?_, rfl, fun h => h⟩
    intro e he
    simp [processNeighbors] at he
  | nb :: rest, visited, queue, sh => by
    by_cases hv : nb ∈ visited
    · have ih := processNeighbors_spec next rest visited queue sh
      simp only [processNeighbors, if_pos hv]
      exact ih
    · have ih := processNeighbors_spec next rest visited (queue ++ [nb]) (sh.insert next nb)
      simp only [processNeighbors, if_neg hv]
      refine ⟨?_, ?_, ?_⟩
      · intro e he
        rcases List.mem_cons.mp he with h | h
        · exact ⟨nb, h, hv⟩
        · exact ih.1 e h
      · exact ih.2.1.trans (shortestGraph_insert_source sh next nb)
      · intro hnd
        exact ih.2.2 (shortestGraph_insert_nodup next nb hnd)

theorem bfs_loop_trace (g : StateGraph) : ∀ (fuel : Nat) (Q V : List Nat) (sg sgf : ShortestGraph)
    (t : List BfsEvent), bfs_loop g fuel Q V sg = some (sgf, t) →
    (∀ x ∈ V, ¬ BfsEvent.pushE x ∈ t) ∧
    (∀ l1 l2 x, t = l1 ++ BfsEvent.popE x :: l2 → ¬ BfsEvent.pushE x ∈ l2) ∧
    sgf.source = sg.source ∧
    ((sg.parent.map Prod.fst).Nodup → (sgf.parent.map Prod.fst).Nodup)
  | 0, Q, V, sg, sgf, t, h => by cases h
  | fuel + 1, [], V, sg, sgf, t, h => by
    injection h with h1
    injection h1 with h2 h3
    subst h2
    subst h3
    refine ⟨?_, ?_, rfl, fun h => h⟩
    · intro x _ hm
      cases hm
    · intro l1 l2 x he
      rcases l1 with _ | ⟨e, l1'⟩ <;> cases he
  | fuel + 1, next :: rest, V, sg, sgf, t, h => by
    rw [bfs_loop] at h
    set V' := insertVisited next V with hV'
    set pr := (match alistLookup next g.neighbors with
      | none => (rest, sg, ([] : List BfsEvent))
      | some ns => processNeighbors next ns V' rest sg) with hpr
    have hprfacts : (∀ e ∈ pr.2.2, ∃ x, e = BfsEvent.pushE x ∧ ¬ x ∈ V') ∧
        pr.2.1.source = sg.source ∧
        ((sg.parent.map Prod.fst).Nodup → (pr.2.1.parent.map Prod.fst).Nodup) := by
      rw [hpr]
      rcases alistLookup next g.neighbors with _ | ns
      · refine ⟨?_, rfl, fun h => h⟩
        intro e he
        cases he
      · exact processNeighbors_spec next ns V' rest sg
    rcases hrec : bfs_loop g fuel pr.1 V' pr.2.1 with _ | p
    · rw [hrec] at h
      cases h
    · obtain ⟨sgf', t'⟩ := p
      rw [hrec] at h
      injection h with h1
      injection h1 with h2 h3
      subst h2
      have ih := bfs_loop_trace g fuel pr.1 V' pr.2.1 sgf' t' hrec
      subst h3
      have hnext_V' : next ∈ V' := mem_insertVisited_self next V
      have hVsub : ∀ y, y ∈ V → y ∈ V' := fun y hy => mem_insertVisited_of_mem next hy
      refine ⟨?_, ?_, ih.2.2.1.trans hprfacts.2.1, fun hnd => ih.2.2.2 (hprfacts.2.2 hnd)⟩
      · intro x hx hm
        rcases List.mem_cons.mp hm with h | h
        · cases h
        · rcases List.mem_append.mp h with h | h
          · obtain ⟨y, hy, hyv⟩ := hprfacts.1 _ h
            injection hy with hxy
            exact hyv (hxy ▸ hVsub x hx)
          · exact ih.1 x (hVsub x hx) h
      · intro l1 l2 x he
        rcases l1 with _ | ⟨e0, l1'⟩
        · rw [List.nil_append] at he
          injection he with he1 he2
          injection he1 with hx
          subst hx
          rw [← he2]
          intro hm
          rcases List.mem_append.mp hm with h | h
          · obtain ⟨y, hy, hyv⟩ := hprfacts.1 _ h
            injection hy with hxy
            exact hyv (hxy ▸ hnext_V')
          · exact ih.1 _ hnext_V' h
        · rw [List.cons_append] at he
          injection he with he1 he2
          rcases List.append_eq_append_iff.mp he2 with ⟨a', ha1, ha2⟩ | ⟨c', hc1, hc2⟩
          · exact ih.2.1 a' l2 x ha2
          · rcases c' with _ | ⟨e1, c''⟩
            · rw [List.nil_append] at hc2
              exact ih.2.1 [] l2 x hc2.symm
            · injection hc2 with hc3 hc4
              have he1mem : e1 ∈ pr.2.2 := by
                rw [hc1]
                exact List.mem_append.mpr (Or.inr (List.mem_cons_self _ _))
              obtain ⟨y, hy, _⟩ := hprfacts.1 _ he1mem
              rw [← hc3] at hy
              cases hy

end BfsTraceLemmas

section ClaimTheoremC6

/-- Counterexample for C6: in the diamond graph 0 to 1 and 2, 1 to 3, 2 to 3,
node 3 is pushed onto the BFS queue twice — the visited set is updated at
dequeue, not at enqueue, so both predecessors of 3 push it. -/
theorem bfs_duplicate_push_counterexample :
    (bfs_run (StateGraph.mk [] [] [(0, [1, 2]), (1, [3]), (2, [3]), (3, [])]) 0 30).map
      (fun p => pushCount p.2 3) = some 2 := by
  rfl

/-- C6 amended: a node can be pushed onto the queue more than once (the visited
set is updated at dequeue), but the visited discipline still guarantees that no
node is ever pushed after it has been dequeued, that the source — seeded into
the visited set — is pushed exactly once (the initial seed), and that the
output tree keeps at most one recorded parent per node, the one from first
discovery. -/
theorem bfs_visited_discipline (g : StateGraph) (src fuel : Nat) (sg : ShortestGraph)
    (t : List BfsEvent) (h : bfs_run g src fuel = some (sg, t)) :
    (∀ l1 l2 x, t = l1 ++ BfsEvent.popE x :: l2 → ¬ BfsEvent.pushE x ∈ l2) ∧
    pushCount t src = 1 ∧
    (sg.parent.map Prod.fst).Nodup := by
  rw [bfs_run] at h
  rcases hrun : bfs_loop g fuel [src] [src] (ShortestGraph.new src) with _ | p
  · rw [hrun] at h
    cases h
  · obtain ⟨sg0, t0⟩ := p
    rw [hrun] at h
    injection h with h1
    injection h1 with h2 h3
    subst h2
    subst h3
    have hlt := bfs_loop_trace g fuel [src] [src] (ShortestGraph.new src) sg0 t0 hrun
    have hsrc_mem : src ∈ [src] := List.mem_singleton_self src
    have hnopush : ¬ BfsEvent.pushE src ∈ t0 := hlt.1 src hsrc_mem
    refine ⟨?_, ?_, hlt.2.2.2 List.nodup_nil⟩
    · intro l1 l2 x he
      rcases l1 with _ | ⟨e0, l1'⟩
      · cases he
      · injection he with he1 he2
        exact hlt.2.1 l1' l2 x he2
    · simp [pushCount, List.count_cons, List.count_eq_zero_of_not_mem hnopush]

/-- Witness for the amended C6 on the diamond graph run. -/
theorem bfs_visited_discipline_witness :
    (∀ l1 l2 x, ([BfsEvent.pushE 0, BfsEvent.popE 0, BfsEvent.pushE 1, BfsEvent.pushE 2,
        BfsEvent.popE 1, BfsEvent.pushE 3, BfsEvent.popE 2, BfsEvent.pushE 3, BfsEvent.popE 3,
        BfsEvent.popE 3] : List BfsEvent) = l1 ++ BfsEvent.popE x :: l2 →
      ¬ BfsEvent.pushE x ∈ l2) ∧
    pushCount [BfsEvent.pushE 0, BfsEvent.popE 0, BfsEvent.pushE 1, BfsEvent.pushE 2,
      BfsEvent.popE 1, BfsEvent.pushE 3, BfsEvent.popE 2, BfsEvent.pushE 3, BfsEvent.popE 3,
      BfsEvent.popE 3] 0 = 1 ∧
    ((ShortestGraph.mk 0 [(3, 1), (2, 0), (1, 0)]).parent.map Prod.fst).Nodup :=
  bfs_visited_discipline (StateGraph.mk [] [] [(0, [1, 2]), (1, [3]), (2, [3]), (3, [])]) 0 30
    (ShortestGraph.mk 0 [(3, 1), (2, 0), (1, 0)])
    [BfsEvent.pushE 0, BfsEvent.popE 0, BfsEvent.pushE 1, BfsEvent.pushE 2, BfsEvent.popE 1,
      BfsEvent.pushE 3, BfsEvent.popE 2, BfsEvent.pushE 3, BfsEvent.popE 3, BfsEvent.popE 3]
    (by rfl)

end ClaimTheoremC6

section FrontierLemmas

theorem mem_dedupF : ∀ {l : List Nat} {x : Nat}, x ∈ dedupF l ↔ x ∈ l
  | [], x => Iff.rfl
  | a :: l, x => by
    rw [dedupF]
    by_cases hax : x = a
    · subst hax
      simp [List.mem_cons]
    · simp only [List.mem_cons, List.mem_filter]
      constructor
      · rintro (h | ⟨h, _⟩)
        · exact Or.inl h
        · exact Or.inr (mem_dedupF.mp h)
      · rintro (h | h)
        · exact Or.inl h
        · exact Or.inr ⟨mem_dedupF.mpr h, by simpa using hax⟩

theorem dedupF_nodup : ∀ (l : List Nat), (dedupF l).Nodup
  | [] => List.nodup_nil
  | a :: l => by
    rw [dedupF]
    refine List.nodup_cons.mpr ⟨?_, List.Nodup.filter _ (dedupF_nodup l)⟩
    intro hm
    have := (List.mem_filter.mp hm).2
    simp at this

theorem dedupF_append_singleton : ∀ (l : List Nat) (x : Nat),
    dedupF (l ++ [x]) = if x ∈ l then dedupF l else dedupF l ++ [x]
  | [], x => by simp [dedupF]
  | a :: l, x => by
    rw [List.cons_append, dedupF, dedupF_append_singleton l x, dedupF]
    by_cases hx : x ∈ a :: l
    · rw [if_pos hx]
      rcases List.mem_cons.mp hx with h | h
      · subst h
        by_cases hm : x ∈ l
        · rw [if_pos hm]
        · rw [if_neg hm, List.filter_append]
          simp
      · rw [if_pos h]
    · have hxa : ¬ x ∈ l := fun hm => hx (List.mem_cons_of_mem _ hm)
      have hxa2 : ¬ x = a := fun he => hx (he ▸ List.mem_cons_self _ _)
      rw [if_neg hx, if_neg hxa, List.filter_append]
      simp [hxa2]

theorem frontier_append_mem {Q : List Nat} {x : Nat} (V : List Nat) (h : x ∈ Q) :
    frontier (Q ++ [x]) V = frontier Q V := by
  rw [frontier, frontier, dedupF_append_singleton, if_pos h]

theorem frontier_append_new {Q V : List Nat} {x : Nat} (hq : ¬ x ∈ Q) (hv : ¬ x ∈ V) :
    frontier (Q ++ [x]) V = frontier Q V ++ [x] := by
  rw [frontier, frontier, dedupF_append_singleton, if_neg hq, List.filter_append]
  simp [hv]

theorem insertVisited_eq_of_mem {x : Nat} {v : List Nat} (h : x ∈ v) :
    insertVisited x v = v := by
  rw [insertVisited, if_pos h]

theorem mem_insertVisited_iff {y x : Nat} {v : List Nat} :
    y ∈ insertVisited x v ↔ y = x ∨ y ∈ v := by
  rw [insertVisited]
  split
  · next h =>
    constructor
    · exact Or.inr
    · rintro (rfl | hy)
      · exact h
      · exact hy
  · exact List.mem_cons

theorem filter_merge_insertVisited (next : Nat) (V : List Nat) : ∀ (l : List Nat),
    (l.filter (fun y => ¬ y = next)).filter (fun q => ¬ q ∈ V)
      = l.filter (fun q => ¬ q ∈ insertVisited next V)
  | [] => rfl
  | a :: l => by
    by_cases h1 : a = next
    · subst h1
      rw [List.filter_cons_of_neg (by simp), List.filter_cons_of_neg
        (by simp [mem_insertVisited_self])]
      exact filter_merge_insertVisited a V l
    · by_cases h2 : a ∈ V
      · rw [List.filter_cons_of_pos (by simp [h1]), List.filter_cons_of_neg (by simp [h2]),
          List.filter_cons_of_neg (by simp [mem_insertVisited_of_mem next h2])]
        exact filter_merge_insertVisited next V l
      · have h3 : ¬ a ∈ insertVisited next V := fun hm => by
          rcases mem_insertVisited_iff.mp hm with h | h
          exacts [h1 h, h2 h]
        rw [List.filter_cons_of_pos (by simp [h1]), List.filter_cons_of_pos (by simp [h2]),
          List.filter_cons_of_pos (by simp [h3])]
        rw [filter_merge_insertVisited next V l]

theorem filter_ne_of_mem {next : Nat} {V : List Nat} (h : next ∈ V) : ∀ (l : List Nat),
    (l.filter (fun y => ¬ y = next)).filter (fun q => ¬ q ∈ V)
      = l.filter (fun q => ¬ q ∈ V)
  | [] => rfl
  | a :: l => by
    by_cases h1 : a = next
    · subst h1
      rw [List.filter_cons_of_neg (by simp), List.filter_cons_of_neg (by simp [h])]
      exact filter_ne_of_mem h l
    · by_cases h2 : a ∈ V
      · rw [List.filter_cons_of_pos (by simp [h1]), List.filter_cons_of_neg (by simp [h2]),
          List.filter_cons_of_neg (by simp [h2])]
        exact filter_ne_of_mem h l
      · rw [List.filter_cons_of_pos (by simp [h1]), List.filter_cons_of_pos (by simp [h2]),
          List.filter_cons_of_pos (by simp [h2])]
        rw [filter_ne_of_mem h l]

theorem frontier_cons_unvis {next : Nat} {rest V : List Nat} (h : ¬ next ∈ V) :
    frontier (next :: rest) V = next :: frontier rest (insertVisited next V) := by
  rw [frontier, frontier, dedupF]
  rw [List.filter_cons_of_pos (by simpa using h)]
  congr 1
  exact filter_merge_insertVisited next V (dedupF rest)

theorem frontier_cons_vis {next : Nat} {rest V : List Nat} (h : next ∈ V) :
    frontier (next :: rest) V = frontier rest V := by
  rw [frontier, frontier, dedupF]
  rw [List.filter_cons_of_neg (by simpa using h)]
  exact filter_ne_of_mem h (dedupF rest)

end FrontierLemmas

section BfsInvLemmas

theorem shortestGraph_insert_of_keyed {sg : ShortestGraph} {child : Nat} (par : Nat)
    (h : (alistLookup child sg.parent).isSome) : sg.insert par child = sg := by
  rw [ShortestGraph.insert, if_pos h]

theorem shortestGraph_insert_of_fresh {sg : ShortestGraph} {child : Nat} (par : Nat)
    (h : alistLookup child sg.parent = none) :
    sg.insert par child = ⟨sg.source, (child, par) :: sg.parent⟩ := by
  rw [ShortestGraph.insert, if_neg (by simp [h])]

theorem keyedOrSource_cons_mono {sg : ShortestGraph} {nb pr x : Nat}
    (h : keyedOrSource sg x) : keyedOrSource ⟨sg.source, (nb, pr) :: sg.parent⟩ x := by
  rcases h with h | h
  · exact Or.inl h
  · right
    show (alistLookup x ((nb, pr) :: sg.parent)).isSome
    by_cases hx : nb = x
    · subst hx
      simp [alistLookup]
    · rw [alistLookup_cons_ne hx]
      exact h

theorem keyedOrSource_cons_self {sg : ShortestGraph} {nb pr : Nat} :
    keyedOrSource ⟨sg.source, (nb, pr) :: sg.parent⟩ nb :=
  Or.inr (by simp [alistLookup])

theorem keyedOrSource_of_lookup {sg : ShortestGraph} {x : Nat} {p : Nat}
    (h : alistLookup x sg.parent = some p) : keyedOrSource sg x :=
  Or.inr (by rw [h]; rfl)

theorem not_keyed_lookup_none {sg : ShortestGraph} {x : Nat}
    (h : ¬ keyedOrSource sg x) : alistLookup x sg.parent = none := by
  rcases hl : alistLookup x sg.parent with _ | p
  · rfl
  · exact absurd (keyedOrSource_of_lookup hl) h

theorem midInv_path_bound {g : StateGraph} {src next : Nat} {Q V : List Nat}
    {sg : ShortestGraph} {D : Nat → Nat} (hi : MidInv g src next Q V sg D) :
    ∀ {m z}, PathTo g src z m → ¬ keyedOrSource sg z → D next + 1 ≤ m := by
  intro m z hp
  induction hp with
  | refl =>
    intro hk
    exact absurd (Or.inl hi.src_eq.symm) hk
  | @tail y k x hpy hmem ih =>
    intro hk
    by_cases hky : keyedOrSource sg y
    · have hd := hi.dmin y hky
      by_cases hyv : y ∈ V
      · by_cases hyn : y = next
        · subst hyn
          have hb := hd.2 _ hpy
          omega
        · exact absurd (hi.vis_nbrs_keyed y hyv hyn _ hmem) hk
      · have hq : y ∈ Q := (hi.keyed_vis_or_queue y hky).resolve_left hyv
        have hfront : y ∈ frontier Q V := by
          rw [frontier, List.mem_filter]
          exact ⟨mem_dedupF.mpr hq, by simpa using hyv⟩
        obtain ⟨A, B, hAB, hA, hB⟩ := hi.twoblock
        rw [hAB] at hfront
        have hDy : D next ≤ D y := by
          rcases List.mem_append.mp hfront with h | h
          · rw [hA y h]
          · rw [hB y h]
            omega
        have hk2 := hd.2 _ hpy
        omega
    · have := ih hky
      omega

theorem chain_len_unique {sg : ShortestGraph} {D : Nat → Nat}
    (hD0 : D sg.source = 0)
    (hedge : ∀ x p, alistLookup x sg.parent = some p → D x = D p + 1) :
    ∀ {x n}, Chain sg x n → keyedOrSource sg x ∧ n = D x := by
  intro x n hc
  induction hc with
  | refl => exact ⟨Or.inl rfl, hD0.symm⟩
  | @tail p k x hcp hlk ih =>
    refine ⟨keyedOrSource_of_lookup hlk, ?_⟩
    rw [hedge _ _ hlk, ← ih.2]

theorem chain_exists_of_keyed {sg : ShortestGraph} {D : Nat → Nat}
    (hD0 : D sg.source = 0)
    (hedge : ∀ x p, alistLookup x sg.parent = some p → keyedOrSource sg p ∧ D x = D p + 1) :
    ∀ x, keyedOrSource sg x → Chain sg x (D x) := by
  have H : ∀ k, ∀ x, D x = k → keyedOrSource sg x → Chain sg x k := by
    intro k
    induction k using Nat.strong_induction_on with
    | _ k IHk =>
      intro x hDx hx
      rcases hx with hx | hx
      · subst hx
        have hk0 : k = 0 := by rw [← hDx, hD0]
        subst hk0
        exact Chain.refl
      · rcases hlk : alistLookup x sg.parent with _ | p
        · rw [hlk] at hx
          cases hx
        · obtain ⟨hkp, hDxp⟩ := hedge x p hlk
          have hDp : D p < k := by omega
          have hc := IHk (D p) (by omega) p rfl hkp
          have hcx := Chain.tail hc hlk
          have hkeq : k = D p + 1 := by omega
          rw [hkeq]
          exact hcx
  exact fun x hx => H (D x) x rfl hx

end BfsInvLemmas

section ProcessNeighborsInv

theorem mem_of_mem_frontier {x : Nat} {Q V : List Nat} (h : x ∈ frontier Q V) : x ∈ Q := by
  rw [frontier] at h
  exact mem_dedupF.mp (List.mem_filter.mp h).1

theorem not_vis_of_mem_frontier {x : Nat} {Q V : List Nat} (h : x ∈ frontier Q V) : ¬ x ∈ V := by
  rw [frontier] at h
  have := (List.mem_filter.mp h).2
  simpa using this

theorem processNeighbors_keyed {sg : ShortestGraph} (next : Nat) :
    ∀ (ns Q V : List Nat), sg.source ∈ V →
    (∀ x ∈ ns, keyedOrSource sg x) →
    (∀ x ∈ ns, ¬ x ∈ V → x ∈ Q) →
    (processNeighbors next ns V Q sg).2.1 = sg ∧
    frontier (processNeighbors next ns V Q sg).1 V = frontier Q V ∧
    (∀ q ∈ (processNeighbors next ns V Q sg).1, q ∈ Q) ∧
    (∀ q ∈ Q, q ∈ (processNeighbors next ns V Q sg).1)
  | [], Q, V, _, _, _ => ⟨rfl, rfl, fun _ hq => hq, fun _ hq => hq⟩
  | nb :: rest, Q, V, hsrcV, hkeyed, hmem => by
    have hkrest : ∀ x ∈ rest, keyedOrSource sg x := fun x hx =>
      hkeyed x (List.mem_cons_of_mem _ hx)
    by_cases hv : nb ∈ V
    · simp only [processNeighbors, if_pos hv]
      exact processNeighbors_keyed next rest Q V hsrcV hkrest
        (fun x hx hxv => hmem x (List.mem_cons_of_mem _ hx) hxv)
    · have hknb : keyedOrSource sg nb := hkeyed nb (List.mem_cons_self _ _)
      have hnbQ : nb ∈ Q := hmem nb (List.mem_cons_self _ _) hv
      have hns : ¬ nb = sg.source := fun he => hv (he ▸ hsrcV)
      have hsome : (alistLookup nb sg.parent).isSome := hknb.resolve_left hns
      have hins : sg.insert next nb = sg := shortestGraph_insert_of_keyed next hsome
      simp only [processNeighbors, if_neg hv, hins]
      obtain ⟨h1, h2, h3, h4⟩ := processNeighbors_keyed next rest (Q ++ [nb]) V hsrcV hkrest
        (fun x hx hxv => List.mem_append_left _ (hmem x (List.mem_cons_of_mem _ hx) hxv))
      refine ⟨h1, ?_, ?_, ?_⟩
      · rw [h2, frontier_append_mem V hnbQ]
      · intro q hq
        rcases List.mem_append.mp (h3 q hq) with h | h
        · exact h
        · rw [List.mem_singleton.mp h]
          exact hnbQ
      · intro q hq
        exact h4 q (List.mem_append_left _ hq)

theorem keyedOrSource_cons_elim {sg : ShortestGraph} {nb pr x : Nat}
    (h : keyedOrSource ⟨sg.source, (nb, pr) :: sg.parent⟩ x) (hx : ¬ x = nb) :
    keyedOrSource sg x := by
  rcases h with h | h
  · exact Or.inl h
  · right
    have hlk : alistLookup x ((nb, pr) :: sg.parent) = alistLookup x sg.parent :=
      alistLookup_cons_ne (fun he => hx he.symm)
    rw [hlk] at h
    exact h

theorem processNeighbors_inv (g : StateGraph) (src next : Nat) :
    ∀ (ns : List Nat) (Q V : List Nat) (sg : ShortestGraph) (D : Nat → Nat),
    MidInv g src next Q V sg D →
    (∀ x ∈ ns, x ∈ nbrs g next) →
    ∃ D', MidInv g src next (processNeighbors next ns V Q sg).1 V
        (processNeighbors next ns V Q sg).2.1 D' ∧
      (∀ x, keyedOrSource sg x → keyedOrSource (processNeighbors next ns V Q sg).2.1 x) ∧
      (∀ x ∈ ns, keyedOrSource (processNeighbors next ns V Q sg).2.1 x)
  | [], Q, V, sg, D, hi, _ =>
    ⟨D, hi, fun _ h => h, fun x hx => absurd hx (List.not_mem_nil x)⟩
  | nb :: rest, Q, V, sg, D, hi, hns => by
    have hnbr : nb ∈ nbrs g next := hns nb (List.mem_cons_self _ _)
    have hrest : ∀ x ∈ rest, x ∈ nbrs g next := fun x hx => hns x (List.mem_cons_of_mem _ hx)
    by_cases hv : nb ∈ V
    · obtain ⟨D', hi', hmono, hkeyed⟩ := processNeighbors_inv g src next rest Q V sg D hi hrest
      simp only [processNeighbors, if_pos hv]
      refine ⟨D', hi', hmono, ?_⟩
      intro x hx
      rcases List.mem_cons.mp hx with h | h
      · rw [h]
        exact hi'.vis_keyed nb hv
      · exact hkeyed x h
    · by_cases hks : keyedOrSource sg nb
      · have hns2 : ¬ nb = sg.source := fun he => hv (by rw [he, hi.src_eq]; exact hi.src_vis)
        have hsome : (alistLookup nb sg.parent).isSome := hks.resolve_left hns2
        have hins : sg.insert next nb = sg := shortestGraph_insert_of_keyed next hsome
        have hnbQ : nb ∈ Q := (hi.keyed_vis_or_queue nb hks).resolve_left hv
        have hi2 : MidInv g src next (Q ++ [nb]) V sg D :=
          { hi with
            src_absent := by
              intro hm
              rcases List.mem_append.mp hm with h | h
              · exact hi.src_absent h
              · exact hns2 ((List.mem_singleton.mp h).symm.trans hi.src_eq.symm)
            queue_keyed := by
              intro q hq
              rcases List.mem_append.mp hq with h | h
              · exact hi.queue_keyed q h
              · rw [List.mem_singleton.mp h]
                exact hks
            keyed_vis_or_queue := fun x hx =>
              (hi.keyed_vis_or_queue x hx).imp (fun h => h) (List.mem_append_left _)
            twoblock := by
              rw [frontier_append_mem V hnbQ]
              exact hi.twoblock }
        obtain ⟨D', hi', hmono, hkeyed⟩ :=
          processNeighbors_inv g src next rest (Q ++ [nb]) V sg D hi2 hrest
        simp only [processNeighbors, if_neg hv, hins]
        refine ⟨D', hi', hmono, ?_⟩
        intro x hx
        rcases List.mem_cons.mp hx with h | h
        · rw [h]
          exact hmono nb hks
        · exact hkeyed x h
      · have hlk : alistLookup nb sg.parent = none := not_keyed_lookup_none hks
        have hins : sg.insert next nb = ⟨sg.source, (nb, next) :: sg.parent⟩ :=
          shortestGraph_insert_of_fresh next hlk
        have hnb_ne_src : ¬ nb = sg.source := fun he =>
          hv (by rw [he, hi.src_eq]; exact hi.src_vis)
        have hnext_ne_nb : ¬ next = nb := fun he => hv (he ▸ hi.next_vis)
        have hnbQfalse : ¬ nb ∈ Q := fun hq => hks (hi.queue_keyed nb hq)
        have hnb_notin_keys : ¬ nb ∈ sg.parent.map Prod.fst := fun hm =>
          hks (Or.inr ((alistLookup_isSome_iff nb sg.parent).mpr hm))
        have hmono1 : ∀ x, keyedOrSource sg x →
            keyedOrSource ⟨sg.source, (nb, next) :: sg.parent⟩ x :=
          fun x hx => keyedOrSource_cons_mono hx
        have hkeyednb : keyedOrSource ⟨sg.source, (nb, next) :: sg.parent⟩ nb :=
          keyedOrSource_cons_self
        have hmin : ∀ m, PathTo g src nb m → D next + 1 ≤ m := fun m hp =>
          midInv_path_bound hi hp hks
        have hpath : PathTo g src nb (D next + 1) :=
          PathTo.tail (hi.dmin next hi.next_keyed).1 hnbr
        have hDkeep : ∀ z, ¬ z = nb →
            (fun z => if z = nb then D next + 1 else D z) z = D z := fun z hz => if_neg hz
        have hkeyed_old : ∀ z, keyedOrSource sg z → ¬ z = nb := by
          intro z hz he
          rw [he] at hz
          exact hks hz
        have hi2 : MidInv g src next (Q ++ [nb]) V ⟨sg.source, (nb, next) :: sg.parent⟩
            (fun z => if z = nb then D next + 1 else D z) := by
          constructor
          · exact hi.src_eq
          · exact hi.src_vis
          · intro hm
            rcases List.mem_append.mp hm with h | h
            · exact hi.src_absent h
            · exact hnb_ne_src ((List.mem_singleton.mp h).symm.trans hi.src_eq.symm)
          · exact List.nodup_cons.mpr ⟨hnb_notin_keys, hi.keys_nodup⟩
          · show alistLookup src ((nb, next) :: sg.parent) = none
            rw [alistLookup_cons_ne (fun he => hnb_ne_src (he.trans hi.src_eq.symm))]
            exact hi.src_not_key
          · exact fun v hv' => hmono1 v (hi.vis_keyed v hv')
          · exact fun v hv' hvn x hx => hmono1 x (hi.vis_nbrs_keyed v hv' hvn x hx)
          · intro q hq
            rcases List.mem_append.mp hq with h | h
            · exact hmono1 q (hi.queue_keyed q h)
            · rw [List.mem_singleton.mp h]
              exact hkeyednb
          · intro x hx
            by_cases hxnb : x = nb
            · right
              rw [hxnb]
              exact List.mem_append_right _ (List.mem_singleton_self _)
            · exact (hi.keyed_vis_or_queue x (keyedOrSource_cons_elim hx hxnb)).imp
                (fun h => h) (List.mem_append_left _)
          · intro x p hxp
            by_cases hxnb : nb = x
            · subst hxnb
              rw [alistLookup_cons_self] at hxp
              injection hxp with hpn
              subst hpn
              refine ⟨hnbr, hmono1 next hi.next_keyed, ?_⟩
              rw [if_pos rfl, if_neg hnext_ne_nb]
            · rw [alistLookup_cons_ne hxnb] at hxp
              obtain ⟨he, hkp, hD⟩ := hi.parent_edge x p hxp
              refine ⟨he, hmono1 p hkp, ?_⟩
              rw [if_neg (fun hh => hxnb hh.symm), if_neg (hkeyed_old p hkp), hD]
          · intro x hx
            by_cases hxnb : x = nb
            · subst hxnb
              rw [if_pos rfl]
              exact ⟨hpath, hmin⟩
            · rw [if_neg hxnb]
              exact hi.dmin x (keyedOrSource_cons_elim hx hxnb)
          · rw [if_neg (fun he => hnb_ne_src (he.symm.trans hi.src_eq.symm))]
            exact hi.dsrc
          · exact hi.next_vis
          · exact hmono1 next hi.next_keyed
          · obtain ⟨A, B, hAB, hA, hB⟩ := hi.twoblock
            refine ⟨A, B ++ [nb], ?_, ?_, ?_⟩
            · rw [frontier_append_new hnbQfalse hv, hAB, List.append_assoc]
            · intro a ha
              have haQ : a ∈ Q := mem_of_mem_frontier (hAB ▸ List.mem_append_left _ ha)
              have hanb : ¬ a = nb := fun he => hnbQfalse (he ▸ haQ)
              rw [if_neg hanb, if_neg hnext_ne_nb]
              exact hA a ha
            · intro b hb
              rcases List.mem_append.mp hb with h | h
              · have hbQ : b ∈ Q := mem_of_mem_frontier (hAB ▸ List.mem_append_right _ h)
                have hbnb : ¬ b = nb := fun he => hnbQfalse (he ▸ hbQ)
                rw [if_neg hbnb, if_neg hnext_ne_nb]
                exact hB b h
              · rw [List.mem_singleton.mp h, if_pos rfl, if_neg hnext_ne_nb]
        obtain ⟨D'', hi', hmono2, hkeyed2⟩ := processNeighbors_inv g src next rest (Q ++ [nb]) V
          ⟨sg.source, (nb, next) :: sg.parent⟩
          (fun z => if z = nb then D next + 1 else D z) hi2 hrest
        simp only [processNeighbors, if_neg hv, hins]
        refine ⟨D'', hi', ?_, ?_⟩
        · exact fun x hx => hmono2 x (hmono1 x hx)
        · intro x hx
          rcases List.mem_cons.mp hx with h | h
          · rw [h]
            exact hmono2 nb hkeyednb
          · exact hkeyed2 x h

end ProcessNeighborsInv

section BfsLoopInv

theorem nbrs_eq_of_lookup {g : StateGraph} {next : Nat} {ns : List Nat}
    (h : alistLookup next g.neighbors = some ns) : nbrs g next = ns := by
  rw [nbrs, h]
  rfl

theorem nbrs_eq_nil_of_lookup_none {g : StateGraph} {next : Nat}
    (h : alistLookup next g.neighbors = none) : nbrs g next = [] := by
  rw [nbrs, h]
  rfl

theorem bfsInv_of_midInv {g : StateGraph} {src next : Nat} {Q V : List Nat}
    {sg : ShortestGraph} {D : Nat → Nat} (hi : MidInv g src next Q V sg D)
    (hnbrs : ∀ x ∈ nbrs g next, keyedOrSource sg x) : BfsInv g src Q V sg D := by
  constructor
  · exact hi.src_eq
  · exact hi.src_vis
  · intro hm
    exact absurd hm hi.src_absent
  · exact hi.keys_nodup
  · exact hi.src_not_key
  · exact hi.vis_keyed
  · intro v hv _ x hx
    by_cases hvn : v = next
    · subst hvn
      exact hnbrs x hx
    · exact hi.vis_nbrs_keyed v hv hvn x hx
  · exact hi.queue_keyed
  · exact hi.keyed_vis_or_queue
  · exact hi.parent_edge
  · exact hi.dmin
  · exact hi.dsrc
  · obtain ⟨A, B, hAB, hA, hB⟩ := hi.twoblock
    exact ⟨D next, A, B, hAB, hA, hB⟩

theorem bfs_loop_inv (g : StateGraph) (src : Nat) : ∀ (fuel : Nat) (Q V : List Nat)
    (sg sgf : ShortestGraph) (t : List BfsEvent) (D : Nat → Nat),
    BfsInv g src Q V sg D →
    bfs_loop g fuel Q V sg = some (sgf, t) →
    ∃ Vf Df, BfsInv g src [] Vf sgf Df
  | 0, Q, V, sg, sgf, t, D, _, h => by cases h
  | fuel + 1, [], V, sg, sgf, t, D, hi, h => by
    injection h with h1
    injection h1 with h2 h3
    subst h2
    exact ⟨V, D, hi⟩
  | fuel + 1, next :: rest, V, sg, sgf, t, D, hi, h => by
    rw [bfs_loop] at h
    set V' := insertVisited next V with hV'
    set pr := (match alistLookup next g.neighbors with
      | none => (rest, sg, ([] : List BfsEvent))
      | some ns => processNeighbors next ns V' rest sg) with hpr
    rcases hrec : bfs_loop g fuel pr.1 V' pr.2.1 with _ | p
    · rw [hrec] at h
      cases h
    · obtain ⟨sgf', t'⟩ := p
      rw [hrec] at h
      injection h with h1
      injection h1 with h2 h3
      subst h2
      have hsrc_rest : ¬ src ∈ rest := by
        intro hm
        have hq := hi.src_pending (List.mem_cons_of_mem _ hm)
        injection hq with hq1 hq2
        rw [hq2] at hm
        cases hm
      have hnext_keyed : keyedOrSource sg next := hi.queue_keyed next (List.mem_cons_self _ _)
      have hnext_V' : next ∈ V' := by
        rw [hV']
        exact mem_insertVisited_self next V
      have hmemV' : ∀ y ∈ V, y ∈ V' := by
        intro y hy
        rw [hV']
        exact mem_insertVisited_of_mem next hy
      have hsrcV' : src ∈ V' := hmemV' src hi.src_vis
      have hstep : ∃ D2, BfsInv g src pr.1 V' pr.2.1 D2 := by
        rw [hpr]
        rcases hlk : alistLookup next g.neighbors with _ | ns
        · -- no neighbor list: the queue simply advances
          have hnb0 := nbrs_eq_nil_of_lookup_none hlk
          refine ⟨D, ?_⟩
          constructor
          · exact hi.src_eq
          · exact hsrcV'
          · intro hm
            exact absurd hm hsrc_rest
          · exact hi.keys_nodup
          · exact hi.src_not_key
          · intro v hv
            rcases mem_insertVisited_iff.mp (hV' ▸ hv) with hveq | hvV
            · rw [hveq]
              exact hnext_keyed
            · exact hi.vis_keyed v hvV
          · intro v hv _ x hx
            by_cases hvn : v = next
            · rw [hvn, hnb0] at hx
              cases hx
            · have hvV : v ∈ V := (mem_insertVisited_iff.mp (hV' ▸ hv)).resolve_left hvn
              refine hi.vis_nbrs_keyed v hvV ?_ x hx
              intro hvs hm
              rcases List.mem_cons.mp hm with hh | hh
              · exact hvn (hvs.trans hh)
              · exact hsrc_rest hh
          · exact fun q hq => hi.queue_keyed q (List.mem_cons_of_mem _ hq)
          · intro x hx
            rcases hi.keyed_vis_or_queue x hx with hxv | hxq
            · exact Or.inl (hmemV' x hxv)
            · rcases List.mem_cons.mp hxq with hh | hh
              · left
                rw [hh]
                exact hnext_V'
              · exact Or.inr hh
          · exact hi.parent_edge
          · exact hi.dmin
          · exact hi.dsrc
          · by_cases hnextV : next ∈ V
            · have hVeq : V' = V := by
                rw [hV']
                exact insertVisited_eq_of_mem hnextV
              rw [hVeq, ← frontier_cons_vis hnextV]
              exact hi.twoblock
            · have hfr : frontier (next :: rest) V = next :: frontier rest V' := by
                rw [hV']
                exact frontier_cons_unvis hnextV
              obtain ⟨d0, A, B, hAB, hA, hB⟩ := hi.twoblock
              rw [hfr] at hAB
              rcases A with _ | ⟨a0, A'⟩
              · rw [List.nil_append] at hAB
                rcases B with _ | ⟨b0, B'⟩
                · cases hAB
                · injection hAB with hb1 hb2
                  refine ⟨d0 + 1, B', [], by rw [hb2, List.append_nil], ?_, ?_⟩
                  · intro a ha
                    exact hB a (List.mem_cons_of_mem _ ha)
                  · intro b hb
                    cases hb
              · injection hAB with ha1 ha2
                refine ⟨d0, A', B, ha2, ?_, hB⟩
                intro a ha
                exact hA a (List.mem_cons_of_mem _ ha)
        · -- neighbors present: run the inner loop
          have hnbrs := nbrs_eq_of_lookup hlk
          by_cases hnextV : next ∈ V
          · by_cases hnexts : next = src
            · -- the source's very first pop: the queue was exactly the seed
              have hq := hi.src_pending (by rw [← hnexts]; exact List.mem_cons_self _ _)
              injection hq with hq1 hq2
              subst hq2
              have hmid : MidInv g src next [] V' sg D := by
                constructor
                · exact hi.src_eq
                · exact hsrcV'
                · exact List.not_mem_nil src
                · exact hi.keys_nodup
                · exact hi.src_not_key
                · intro v hv
                  rcases mem_insertVisited_iff.mp (hV' ▸ hv) with hveq | hvV
                  · rw [hveq]
                    exact hnext_keyed
                  · exact hi.vis_keyed v hvV
                · intro v hv hvn x hx
                  have hvV : v ∈ V := (mem_insertVisited_iff.mp (hV' ▸ hv)).resolve_left hvn
                  refine hi.vis_nbrs_keyed v hvV ?_ x hx
                  intro hvs
                  exact absurd (hvs.trans hnexts.symm) hvn
                · intro q hq'
                  cases hq'
                · intro x hx
                  rcases hi.keyed_vis_or_queue x hx with hxv | hxq
                  · exact Or.inl (hmemV' x hxv)
                  · rcases List.mem_cons.mp hxq with hh | hh
                    · left
                      rw [hh]
                      exact hnext_V'
                    · cases hh
                · exact hi.parent_edge
                · exact hi.dmin
                · exact hi.dsrc
                · exact hnext_V'
                · exact hnext_keyed
                · exact ⟨[], [], rfl, fun a ha => absurd ha (List.not_mem_nil a),
                    fun b hb => absurd hb (List.not_mem_nil b)⟩
              obtain ⟨D2, hmid', hmono, hkeyed⟩ := processNeighbors_inv g src next ns [] V' sg D
                hmid (fun x hx => by rw [hnbrs]; exact hx)
              refine ⟨D2, bfsInv_of_midInv hmid' ?_⟩
              intro x hx
              rw [hnbrs] at hx
              exact hkeyed x hx
            · -- a stale pop: every neighbor is already in the tree
              have hstale : ∀ x ∈ nbrs g next, keyedOrSource sg x := by
                refine hi.vis_nbrs_keyed next hnextV ?_
                intro hh
                exact absurd hh hnexts
              have hVeq : V' = V := by
                rw [hV']
                exact insertVisited_eq_of_mem hnextV
              obtain ⟨hsg_eq, hfr_eq, hsub, hsup⟩ := processNeighbors_keyed next ns rest V'
                (by rw [hi.src_eq]; exact hsrcV')
                (fun x hx => hstale x (by rw [hnbrs]; exact hx))
                (fun x hx hxv => by
                  have hk := hstale x (by rw [hnbrs]; exact hx)
                  rcases hi.keyed_vis_or_queue x hk with hxv2 | hxq
                  · exact absurd (hVeq ▸ hmemV' x hxv2) hxv
                  · rcases List.mem_cons.mp hxq with hh | hh
                    · exact absurd (hh ▸ hnext_V') hxv
                    · exact hh)
              refine ⟨D, ?_⟩
              rw [hsg_eq]
              constructor
              · exact hi.src_eq
              · exact hsrcV'
              · intro hm
                exact absurd (hsub src hm) hsrc_rest
              · exact hi.keys_nodup
              · exact hi.src_not_key
              · intro v hv
                rcases mem_insertVisited_iff.mp (hV' ▸ hv) with hveq | hvV
                · rw [hveq]
                  exact hnext_keyed
                · exact hi.vis_keyed v hvV
              · intro v hv _ x hx
                by_cases hvn : v = next
                · subst hvn
                  exact hstale x hx
                · have hvV : v ∈ V := (mem_insertVisited_iff.mp (hV' ▸ hv)).resolve_left hvn
                  refine hi.vis_nbrs_keyed v hvV ?_ x hx
                  intro hvs hm
                  rcases List.mem_cons.mp hm with hh | hh
                  · exact hvn (hvs.trans hh)
                  · exact hsrc_rest hh
              · exact fun q hq' => hi.queue_keyed q (List.mem_cons_of_mem _ (hsub q hq'))
              · intro x hx
                rcases hi.keyed_vis_or_queue x hx with hxv | hxq
                · exact Or.inl (hmemV' x hxv)
                · rcases List.mem_cons.mp hxq with hh | hh
                  · left
                    rw [hh]
                    exact hnext_V'
                  · exact Or.inr (hsup x hh)
              · exact hi.parent_edge
              · exact hi.dmin
              · exact hi.dsrc
              · rw [hfr_eq, hVeq, ← frontier_cons_vis hnextV]
                exact hi.twoblock
          · -- first pop of an ordinary node
            have hmid : MidInv g src next rest V' sg D := by
              constructor
              · exact hi.src_eq
              · exact hsrcV'
              · exact hsrc_rest
              · exact hi.keys_nodup
              · exact hi.src_not_key
              · intro v hv
                rcases mem_insertVisited_iff.mp (hV' ▸ hv) with hveq | hvV
                · rw [hveq]
                  exact hnext_keyed
                · exact hi.vis_keyed v hvV
              · intro v hv hvn x hx
                have hvV : v ∈ V := (mem_insertVisited_iff.mp (hV' ▸ hv)).resolve_left hvn
                refine hi.vis_nbrs_keyed v hvV ?_ x hx
                intro hvs hm
                rcases List.mem_cons.mp hm with hh | hh
                · exact hvn (hvs.trans hh)
                · exact hsrc_rest hh
              · exact fun q hq => hi.queue_keyed q (List.mem_cons_of_mem _ hq)
              · intro x hx
                rcases hi.keyed_vis_or_queue x hx with hxv | hxq
                · exact Or.inl (hmemV' x hxv)
                · rcases List.mem_cons.mp hxq with hh | hh
                  · left
                    rw [hh]
                    exact hnext_V'
                  · exact Or.inr hh
              · exact hi.parent_edge
              · exact hi.dmin
              · exact hi.dsrc
              · exact hnext_V'
              · exact hnext_keyed
              · have hfr : frontier (next :: rest) V = next :: frontier rest V' := by
                  rw [hV']
                  exact frontier_cons_unvis hnextV
                obtain ⟨d0, A, B, hAB, hA, hB⟩ := hi.twoblock
                rw [hfr] at hAB
                rcases A with _ | ⟨a0, A'⟩
                · rw [List.nil_append] at hAB
                  rcases B with _ | ⟨b0, B'⟩
                  · cases hAB
                  · injection hAB with hb1 hb2
                    have hdn : D next = d0 + 1 := by
                      rw [hb1]
                      exact hB b0 (List.mem_cons_self _ _)
                    refine ⟨B', [], by rw [hb2, List.append_nil], ?_, ?_⟩
                    · intro a ha
                      rw [hdn]
                      exact hB a (List.mem_cons_of_mem _ ha)
                    · intro b hb
                      cases hb
                · injection hAB with ha1 ha2
                  have hdn : D next = d0 := by
                    rw [ha1]
                    exact hA a0 (List.mem_cons_self _ _)
                  refine ⟨A', B, ha2, ?_, ?_⟩
                  · intro a ha
                    rw [hdn]
                    exact hA a (List.mem_cons_of_mem _ ha)
                  · intro b hb
                    rw [hdn]
                    exact hB b hb
            obtain ⟨D2, hmid', hmono, hkeyed⟩ := processNeighbors_inv g src next ns rest V' sg D
              hmid (fun x hx => by rw [hnbrs]; exact hx)
            refine ⟨D2, bfsInv_of_midInv hmid' ?_⟩
            intro x hx
            rw [hnbrs] at hx
            exact hkeyed x hx
      obtain ⟨D2, hinv2⟩ := hstep
      exact bfs_loop_inv g src fuel pr.1 V' pr.2.1 sgf' t' D2 hinv2 hrec

end BfsLoopInv

section ClaimTheoremC5

theorem bfs_initial_inv (g : StateGraph) (src : Nat) :
    BfsInv g src [src] [src] (ShortestGraph.new src) (fun _ => 0) := by
  have hfr : frontier [src] [src] = [] := by
    rw [frontier]
    have hd : dedupF [src] = [src] := rfl
    rw [hd, List.filter_cons_of_neg (by simp)]
    rfl
  constructor
  · rfl
  · exact List.mem_singleton_self src
  · exact fun _ => rfl
  · exact List.nodup_nil
  · rfl
  · intro v hv
    exact Or.inl (List.mem_singleton.mp hv)
  · intro v hv hcond
    exact absurd (List.mem_singleton_self src) (hcond (List.mem_singleton.mp hv))
  · intro q hq
    exact Or.inl (List.mem_singleton.mp hq)
  · intro x hx
    rcases hx with hx | hx
    · exact Or.inr (by rw [hx]; exact List.mem_singleton_self src)
    · cases hx
  · intro x p hxp
    cases hxp
  · intro x hx
    rcases hx with hx | hx
    · rw [hx]
      exact ⟨PathTo.refl, fun m _ => Nat.zero_le m⟩
    · cases hx
  · rfl
  · exact ⟨0, [], [], by rw [hfr]; rfl, fun a ha => absurd ha (List.not_mem_nil a),
      fun b hb => absurd hb (List.not_mem_nil b)⟩

/-- C5: for every state graph and source id, whenever the breadth-first run
completes, the returned tree contains an entry for exactly the ids reachable
from the source by directed edges (unreachable ids are simply absent), every
recorded parent chain is a real path in the graph, its length is the true
minimum edge-count distance, and every reachable id has such a chain. -/
theorem bfs_shortest_path_correct (g : StateGraph) (src fuel : Nat) (sg : ShortestGraph)
    (h0 : build_shortest_path_from g src fuel = some sg) :
    (∀ x, (x = src ∨ (alistLookup x sg.parent).isSome) ↔ ReachableFrom g src x) ∧
    (∀ x n, Chain sg x n → PathTo g src x n ∧ MinDistIs g src x n) ∧
    (∀ x, ReachableFrom g src x → ∃ n, Chain sg x n) := by
  rw [build_shortest_path_from] at h0
  rcases hb : bfs_run g src fuel with _ | q
  · rw [hb] at h0
    cases h0
  obtain ⟨sgq, t⟩ := q
  rw [hb] at h0
  simp only [Option.map_some'] at h0
  injection h0 with h0'
  subst h0'
  have h := hb
  rw [bfs_run] at h
  rcases hrun : bfs_loop g fuel [src] [src] (ShortestGraph.new src) with _ | p
  · rw [hrun] at h
    cases h
  · obtain ⟨sg0, t0⟩ := p
    rw [hrun] at h
    injection h with h1
    injection h1 with h2 h3
    subst h2
    obtain ⟨Vf, Df, hinv⟩ := bfs_loop_inv g src fuel [src] [src] (ShortestGraph.new src) sg0 t0
      (fun _ => 0) (bfs_initial_inv g src) hrun
    have hsrc_eq := hinv.src_eq
    have hkos : ∀ x, (x = src ∨ (alistLookup x sg0.parent).isSome) ↔ keyedOrSource sg0 x := by
      intro x
      rw [keyedOrSource, hsrc_eq]
    have hclosed : ∀ x, keyedOrSource sg0 x → x ∈ Vf := fun x hx =>
      (hinv.keyed_vis_or_queue x hx).resolve_right (List.not_mem_nil x)
    have hreach_keyed : ∀ n x, PathTo g src x n → keyedOrSource sg0 x := by
      intro n x hp
      induction hp with
      | refl => exact Or.inl hsrc_eq.symm
      | @tail y k x hpy hmem ih =>
        exact hinv.vis_nbrs_keyed y (hclosed y ih) (fun _ => List.not_mem_nil src) x hmem
    have hedge2 : ∀ x p, alistLookup x sg0.parent = some p → Df x = Df p + 1 :=
      fun x p hxp => (hinv.parent_edge x p hxp).2.2
    have hD0 : Df sg0.source = 0 := by
      rw [hsrc_eq]
      exact hinv.dsrc
    refine ⟨?_, ?_, ?_⟩
    · intro x
      rw [hkos x]
      constructor
      · intro hk
        exact ⟨Df x, (hinv.dmin x hk).1⟩
      · rintro ⟨n, hp⟩
        exact hreach_keyed n x hp
    · intro x n hc
      obtain ⟨hk, hn⟩ := chain_len_unique hD0 hedge2 hc
      have hmd := hinv.dmin x hk
      rw [hn]
      exact ⟨hmd.1, hmd⟩
    · rintro x ⟨n, hp⟩
      have hk := hreach_keyed n x hp
      exact ⟨Df x, chain_exists_of_keyed hD0
        (fun y p hyp => ⟨(hinv.parent_edge y p hyp).2.1, (hinv.parent_edge y p hyp).2.2⟩)
        x hk⟩

/-- Witness for C5 on the one-edge graph 0 to 1. -/
theorem bfs_shortest_path_correct_witness :
    (∀ x, (x = 0 ∨ (alistLookup x (ShortestGraph.mk 0 [(1, 0)]).parent).isSome) ↔
      ReachableFrom (StateGraph.mk [] [] [(0, [1])]) 0 x) ∧
    (∀ x n, Chain (ShortestGraph.mk 0 [(1, 0)]) x n →
      PathTo (StateGraph.mk [] [] [(0, [1])]) 0 x n ∧
      MinDistIs (StateGraph.mk [] [] [(0, [1])]) 0 x n) ∧
    (∀ x, ReachableFrom (StateGraph.mk [] [] [(0, [1])]) 0 x →
      ∃ n, Chain (ShortestGraph.mk 0 [(1, 0)]) x n) :=
  bfs_shortest_path_correct (StateGraph.mk [] [] [(0, [1])]) 0 10
    (ShortestGraph.mk 0 [(1, 0)]) (by rfl)

end ClaimTheoremC5

end Lvlgen
